import Mathlib

/-!
# backtest-go: key-level cache, breach detection and the strategy loop

A shallow embedding of `kvcache/cache.go`, `data/candle.go`, `data/dataHandler.go`,
`data/trade.go` and `stratey/smt.go`.

Modelling conventions
* `float64` prices are finite rationals (`ℚ`): the code only compares them, and the
  specification restricts prices to finite real numbers.
* A `time.Time` value is a `Time`: the instant that `Before` compares, and a tag for the
  rest of what `==` and map keys compare (the Location pointer and the encoding).  A
  numeral such as `7` is the instant 7 in the default Location.
* A Go pointer field that is only ever nil or freshly allocated is an `Option`.
* A Go `map[K]V` is a `GoMap K V`: a duplicate-free association list.  Assignment
  `m[k] = v` is `GoMap.set`; lookup is `GoMap.get`.
* `for k, v := range m` visits the keys in an order Go leaves unspecified.  Every
  function that ranges over a map takes the visiting order as an explicit argument
  `order : List K`; the orders Go may choose are the permutations of `m.keys`.
* A method with a pointer receiver returns the updated receiver.
-/

namespace Backtest

/-! ## Go maps -/

/-- A Go map: an association list whose keys are pairwise distinct. -/
structure GoMap (κ : Type) (ν : Type) where
  entries : List (κ × ν)
  nodupKeys : (entries.map Prod.fst).Nodup

/-- First value bound to `k` in an association list. -/
def lookupKey {κ ν : Type} [DecidableEq κ] (k : κ) : List (κ × ν) → Option ν
  | [] => none
  | e :: t => if e.1 = k then some e.2 else lookupKey k t

/-- The empty map, `make(map[K]V)`. -/
def GoMap.empty {κ ν : Type} : GoMap κ ν := ⟨[], List.nodup_nil⟩

/-- The keys of the map, in storage order. -/
def GoMap.keys {κ ν : Type} (m : GoMap κ ν) : List κ := m.entries.map Prod.fst

/-- Lookup, `v, ok := m[k]`. -/
def GoMap.get {κ ν : Type} [DecidableEq κ] (m : GoMap κ ν) (k : κ) : Option ν :=
  lookupKey k m.entries

/-- Assignment `m[k] = v`: overwrite the binding of `k` when there is one, add one otherwise. -/
def GoMap.set {κ ν : Type} [DecidableEq κ] (m : GoMap κ ν) (k : κ) (v : ν) : GoMap κ ν :=
  if h : k ∈ m.entries.map Prod.fst then
    ⟨m.entries.map (fun e => if e.1 = k then (k, v) else e), by
      have hk : (m.entries.map (fun e => if e.1 = k then (k, v) else e)).map Prod.fst
          = m.entries.map Prod.fst := by
        rw [List.map_map]
        apply List.map_congr_left
        intro e _
        by_cases he : e.1 = k
        · simp [he]
        · simp [he]
      rw [hk]
      exact m.nodupKeys⟩
  else
    ⟨m.entries ++ [(k, v)], by
      rw [List.map_append]
      refine List.Nodup.append m.nodupKeys (by simp) ?_
      intro a ha hb
      simp only [List.map_cons, List.map_nil, List.mem_singleton] at hb
      exact h (hb ▸ ha)⟩

/-! ## `time.Time` -/

/-- A `time.Time` value.  `t.Before(u)` compares `instant` only; `t == u`, which is also the
equality of map keys, compares the whole value: the instant and `loc`, which stands for the
Location pointer and whatever else of the representation `==` sees.  So one instant in two
Locations gives two different values, neither of them before the other. -/
structure Time where
  instant : Int
  loc : Nat
deriving DecidableEq

/-- A numeral `n` is the instant `n` in the default Location. -/
instance (n : Nat) : OfNat Time n := ⟨{ instant := n, loc := 0 }⟩

/-- The order `t < u` is `t.Before(u)`. -/
instance : LT Time := ⟨fun t u => t.instant < u.instant⟩

/-- The order `t.Before(u)` is decided on the instants. -/
instance (t u : Time) : Decidable (t < u) :=
  inferInstanceAs (Decidable (t.instant < u.instant))

/-! ## `data/candle.go` -/

/-- Candle represents OHLCV data for a specific time interval. -/
structure Candle where
  Timestamp : Time
  Open : ℚ
  High : ℚ
  Low : ℚ
  Close : ℚ
  Volume : ℚ
deriving DecidableEq

/-- IsSwingHigh checks if the current candle is a swing high. -/
def Candle.IsSwingHigh (c : Candle) (previous next : Candle) : Bool :=
  decide (c.High > previous.High) && decide (c.High > next.High)

/-- IsSwingLow checks if the current candle is a swing low. -/
def Candle.IsSwingLow (c : Candle) (previous next : Candle) : Bool :=
  decide (c.Low < previous.Low) && decide (c.Low < next.Low)

/-- Range returns the range of the candle (High - Low). -/
def Candle.Range (c : Candle) : ℚ := c.High - c.Low

/-- BodySize returns the size of the candle body (Close - Open). -/
def Candle.BodySize (c : Candle) : ℚ := c.Close - c.Open

/-- IsBullish checks if the candle is bullish (Close > Open). -/
def Candle.IsBullish (c : Candle) : Bool := decide (c.Close > c.Open)

/-- IsBearish checks if the candle is bearish (Close < Open). -/
def Candle.IsBearish (c : Candle) : Bool := decide (c.Close < c.Open)

/-- IsBullishOrderBlock identifies a bullish order block:
`c.IsBearish() && c.BodySize() > (c.Range()*0.5)`. -/
def Candle.IsBullishOrderBlock (c : Candle) : Bool :=
  c.IsBearish && decide (c.BodySize > c.Range * 0.5)

/-- IsBearishOrderBlock identifies a bearish order block:
`c.IsBullish() && c.BodySize() > (c.Range()*0.5)`. -/
def Candle.IsBearishOrderBlock (c : Candle) : Bool :=
  c.IsBullish && decide (c.BodySize > c.Range * 0.5)

/-- HasFairValueGap checks if there's a gap between two candles. -/
def Candle.HasFairValueGap (c : Candle) (next : Candle) : Bool :=
  decide (c.Low > next.High) || decide (next.Low > c.High)

/-- FVGRange calculates the range of a Fair Value Gap (if present). -/
def Candle.FVGRange (c : Candle) (next : Candle) : ℚ × ℚ × Bool :=
  if c.HasFairValueGap next then
    if c.Low > next.High then (next.High, c.Low, true)
    else (c.High, next.Low, true)
  else (0, 0, false)

/-! ## `data/trade.go` -/

/-- Trade represents an executed trade (`Type_` is the Go field `Type`). -/
structure Trade where
  Timestamp : Time
  Type_ : String
  Price : ℚ
  Volume : ℚ
deriving DecidableEq

/-! ## `kvcache/cache.go` -/

/-- KeyLevelType defines the type of key stored in the KeyStore (a Go string type). -/
abbrev KeyLevelType := String

def LevelType : KeyLevelType := "level"
def RangeType : KeyLevelType := "range"
def CandlestickType : KeyLevelType := "candlestick"
def FVGType : KeyLevelType := "fvg"
def MSBType : KeyLevelType := "msb"
def OrderBlockType : KeyLevelType := "orderBlock"
def SwingHighType : KeyLevelType := "swingHigh"
def SwingLowType : KeyLevelType := "swingLow"

/-- FVG represents a Fair Value Gap range. -/
structure FVG where
  Low : ℚ
  High : ℚ
deriving DecidableEq

/-- PriceRange represents a range with upper and lower bounds. -/
structure PriceRange where
  Low : ℚ
  High : ℚ
deriving DecidableEq

structure SwingLow where
  Type_ : String
  Low : ℚ
deriving DecidableEq

structure SwingHigh where
  Type_ : String
  High : ℚ
deriving DecidableEq

/-- MSB represents a market structure break. -/
structure MSB where
  Type_ : String
  BreakPoint : ℚ
deriving DecidableEq

/-- OrderBlock represents a bullish or bearish order block. -/
structure OrderBlock where
  Type_ : String
  Candlestick : Candle
deriving DecidableEq

/-- KeyLevel: one flat record with optional payload fields, as in the source.
The defaults are Go's zero values. -/
structure KeyLevel where
  Name : String := ""
  Level : ℚ := 0
  Range : Option PriceRange := none
  Candlestick : Option Candle := none
  FVG : Option Backtest.FVG := none
  MSB : Option Backtest.MSB := none
  OrderBlock : Option Backtest.OrderBlock := none
  SwingLow : Option Backtest.SwingLow := none
  SwingHigh : Option Backtest.SwingHigh := none
  Type_ : KeyLevelType := ""
  Active : Bool := false
  Timestamp : Time := 0
deriving DecidableEq

/-- KeyStore is a cache for tracking key price levels, ranges, and trading concepts. -/
structure KeyStore where
  levels : GoMap String KeyLevel

/-- NewKeyStore initializes a new KeyStore. -/
def NewKeyStore : KeyStore := ⟨GoMap.empty⟩

/-- AddFVG adds a Fair Value Gap to the store. -/
def KeyStore.AddFVG (ks : KeyStore) (name : String) (low high : ℚ) (candlestick : Candle) :
    KeyStore :=
  ⟨ks.levels.set name
    { Name := name, FVG := some { Low := low, High := high }, Type_ := FVGType,
      Active := true, Timestamp := candlestick.Timestamp }⟩

/-- AddMSB adds a Market Structure Break to the store. -/
def KeyStore.AddMSB (ks : KeyStore) (name msbType : String) (breakPoint : ℚ)
    (candlestick : Candle) : KeyStore :=
  ⟨ks.levels.set name
    { Name := name, MSB := some { Type_ := msbType, BreakPoint := breakPoint },
      Type_ := MSBType, Active := true, Timestamp := candlestick.Timestamp }⟩

/-- AddOrderBlock adds a Bullish/Bearish Order Block to the store. -/
def KeyStore.AddOrderBlock (ks : KeyStore) (name blockType : String) (candlestick : Candle) :
    KeyStore :=
  ⟨ks.levels.set name
    { Name := name, OrderBlock := some { Type_ := blockType, Candlestick := candlestick },
      Type_ := OrderBlockType, Active := true, Timestamp := candlestick.Timestamp }⟩

def KeyStore.AddSwingLow (ks : KeyStore) (name blockType : String) (candlestick : Candle) :
    KeyStore :=
  ⟨ks.levels.set name
    { Name := name, SwingLow := some { Type_ := blockType, Low := candlestick.Low },
      Type_ := SwingLowType, Active := true, Timestamp := candlestick.Timestamp }⟩

def KeyStore.AddSwingHigh (ks : KeyStore) (name blockType : String) (candlestick : Candle) :
    KeyStore :=
  ⟨ks.levels.set name
    { Name := name, SwingHigh := some { Type_ := blockType, High := candlestick.High },
      Type_ := SwingHighType, Active := true, Timestamp := candlestick.Timestamp }⟩

/-- The condition of the `case RangeType, FVGType` arm:
`key.Range != nil && price >= key.Range.Low && price <= key.Range.High`. -/
def rangeHit (price : ℚ) (key : KeyLevel) : Bool :=
  match key.Range with
  | none => false
  | some r => decide (price ≥ r.Low) && decide (price ≤ r.High)

/-- The condition of the `case MSBType` arm. -/
def msbHit (price : ℚ) (key : KeyLevel) : Bool :=
  match key.MSB with
  | none => false
  | some m =>
    (decide (m.Type_ = "bullish") && decide (price > m.BreakPoint)) ||
    (decide (m.Type_ = "bearish") && decide (price < m.BreakPoint))

/-- The body of the loop of `CheckPriceBreach` for the map entry `name`; the state is
the slice `breached` and the store.  `key` is read when the iteration reaches `name`. -/
def breachBody (price : ℚ) (st : List KeyLevel × KeyStore) (name : String) :
    List KeyLevel × KeyStore :=
  match st.2.levels.get name with
  | none => st
  | some key =>
    if !key.Active then st
    else if key.Type_ = LevelType then
      if price ≤ key.Level then
        (st.1 ++ [key], ⟨st.2.levels.set name { key with Active := false }⟩)
      else st
    else if key.Type_ = RangeType ∨ key.Type_ = FVGType then
      if rangeHit price key then (st.1 ++ [key], st.2) else st
    else if key.Type_ = MSBType then
      if msbHit price key then (st.1 ++ [key], st.2) else st
    else st

/-- CheckPriceBreach checks if a price breaches any active levels, FVGs, or MSBs.
`order` is the order in which `range ks.levels` visits the names.  Returns the slice
`breached` and the updated store. -/
def KeyStore.CheckPriceBreach (ks : KeyStore) (order : List String) (price : ℚ) :
    List KeyLevel × KeyStore :=
  order.foldl (breachBody price) ([], ks)

/-- The visiting orders Go may choose for `range ks.levels`: each name exactly once. -/
def KeyStore.IterationOrder (ks : KeyStore) (order : List String) : Prop :=
  order.Perm ks.levels.keys

/-! ## `data/dataHandler.go` -/

/-- Timeframe defines the duration of a candlestick (a Go string type). -/
abbrev Timeframe := String

/-- DataHandler manages candlesticks grouped by timeframe. -/
structure DataHandler where
  CandlesByTimeframe : GoMap Timeframe (GoMap Time Candle)

/-- NewDataHandler initializes a DataHandler with no candles. -/
def NewDataHandler : DataHandler := ⟨GoMap.empty⟩

/-- AddCandles adds a slice of candles to a specific timeframe. -/
def DataHandler.AddCandles (dh : DataHandler) (timeframe : Timeframe) (candles : List Candle) :
    DataHandler :=
  let dh1 : DataHandler :=
    match dh.CandlesByTimeframe.get timeframe with
    | some _ => dh
    | none => ⟨dh.CandlesByTimeframe.set timeframe GoMap.empty⟩
  candles.foldl
    (fun d candle =>
      match d.CandlesByTimeframe.get timeframe with
      | some m => ⟨d.CandlesByTimeframe.set timeframe (m.set candle.Timestamp candle)⟩
      | none => d)
    dh1

/-- GetCandlesByTimeframe retrieves all candles for a specific timeframe.  `order` is the
order in which `range candles` visits the timestamps of the inner map. -/
def DataHandler.GetCandlesByTimeframe (dh : DataHandler) (timeframe : Timeframe)
    (order : List Time) : Except String (List Candle) :=
  match dh.CandlesByTimeframe.get timeframe with
  | some candles =>
    .ok (order.foldl
      (fun result ts =>
        match candles.get ts with
        | some candle => result ++ [candle]
        | none => result)
      [])
  | none => .error ("no candles found for timeframe " ++ timeframe)

/-- The result of `sort.Slice(timestamps, func(i, j) { return timestamps[i].Before(timestamps[j]) })`:
the timestamps in ascending order of instant.  `sort.Slice` is not stable, so timestamps of
equal instant may come out in any order; insertion sort leaves them in the order of the
input, and as the input order is the arbitrary visiting order of the map, every outcome is
covered.  (Up to 12 elements Go runs this very insertion sort.) -/
def sortTimestamps (timestamps : List Time) : List Time :=
  timestamps.insertionSort (fun a b => a.instant ≤ b.instant)

/-- The loop `for i := 1; i < len(timestamps); i++ { if timestamps[i] == timestamp { return
candlesMap[timestamps[i-1]] } }`: the element before the first match found from index 1 on.
The test `b = timestamp` is Go's `==` on `time.Time`, equality of the whole value. -/
def findPrevious (timestamp : Time) : List Time → Option Time
  | [] => none
  | [_] => none
  | a :: b :: rest => if b = timestamp then some a else findPrevious timestamp (b :: rest)

/-- PreviousCandle retrieves the candle immediately before the given timestamp in the
specified timeframe.  `order` is the order in which `range candlesMap` visits the
timestamps.  An index expression on a map yields the zero value for an absent key.  The
text of the second error shows the instant as an integer. -/
def DataHandler.PreviousCandle (dh : DataHandler) (timeframe : Timeframe) (order : List Time)
    (timestamp : Time) : Except String Candle :=
  match dh.CandlesByTimeframe.get timeframe with
  | none => .error ("no data available for timeframe " ++ timeframe)
  | some candlesMap =>
    let timestamps := sortTimestamps (order.filter (fun ts => (candlesMap.get ts).isSome))
    match findPrevious timestamp timestamps with
    | some prev =>
      match candlesMap.get prev with
      | some candle => .ok candle
      | none => .ok { Timestamp := 0, Open := 0, High := 0, Low := 0, Close := 0, Volume := 0 }
    | none =>
      .error ("no previous candle found for timestamp " ++ toString timestamp.instant
        ++ " in timeframe " ++ timeframe)

/-! ## `stratey/smt.go` -/

/-- ICTStrategy implements the ICT Smart Money Concept strategy. -/
structure ICTStrategy where
  keyStore : KeyStore

/-- NewICTStrategy initializes a new ICTStrategy. -/
def NewICTStrategy (store : KeyStore) : ICTStrategy := ⟨store⟩

/-- The body of `for i, candle := range candles` in `Run`; the state is the slice `trades`
and the key store.  `sched i` is the order in which the call of `CheckPriceBreach` made
for candle `i` visits the cache.  (`i < len(candles)-1` is evaluated inside the loop only,
where `len(candles) ≥ 1`, so the truncated subtraction on `Nat` agrees with Go.) -/
def runBody (candles : List Candle) (sched : Nat → List String)
    (st : List Trade × KeyStore) (i : Nat) : List Trade × KeyStore :=
  match candles[i]? with
  | none => st
  | some candle =>
    let prevCandle : Option Candle := if i > 0 then candles[i - 1]? else none
    let nextCandle : Option Candle := if i < candles.length - 1 then candles[i + 1]? else none
    let r := st.2.CheckPriceBreach (sched i) candle.Low
    let trades := r.1.foldl
      (fun acc _level =>
        acc ++ [{ Timestamp := candle.Timestamp, Type_ := "Sell", Price := candle.Low,
                  Volume := 0 }])
      st.1
    let ks1 : KeyStore :=
      match prevCandle, nextCandle with
      | some p, some n =>
        if candle.IsSwingLow p n then r.2.AddSwingLow "" "swingLow" candle else r.2
      | _, _ => r.2
    let ks2 : KeyStore :=
      match prevCandle, nextCandle with
      | some p, some n =>
        if candle.IsSwingHigh p n then ks1.AddSwingLow "" "swingHigh" candle else ks1
      | _, _ => ks1
    (trades, ks2)

/-- The loop of `Run` over the fetched candles, from `trades = nil`. -/
def runCandles (candles : List Candle) (sched : Nat → List String) (ks : KeyStore) :
    List Trade × KeyStore :=
  (List.range candles.length).foldl (runBody candles sched) ([], ks)

/-- Run fetches the candles of the timeframe, then loop.  `candleOrder` is the visiting
order of the candle map inside `GetCandlesByTimeframe`.  Returns `(trades, err)` and the
strategy with its updated key store. -/
def ICTStrategy.Run (s : ICTStrategy) (data : DataHandler) (timeframe : Timeframe)
    (candleOrder : List Time) (sched : Nat → List String) :
    Except String (List Trade) × ICTStrategy :=
  match data.GetCandlesByTimeframe timeframe candleOrder with
  | .error err => (.error err, s)
  | .ok candles =>
    let r := runCandles candles sched s.keyStore
    (.ok r.1, ⟨r.2⟩)

/-- The key store as it is when `Run` starts processing candle `i`. -/
def cacheBefore (candles : List Candle) (sched : Nat → List String) (ks : KeyStore)
    (i : Nat) : KeyStore :=
  ((List.range i).foldl (runBody candles sched) ([], ks)).2

/-- A schedule Go may follow during the loop: at every candle the visiting order of
`CheckPriceBreach` is a permutation of the names then in the cache. -/
def ValidSchedule (candles : List Candle) (sched : Nat → List String) (ks : KeyStore) : Prop :=
  ∀ i, i < candles.length → (cacheBefore candles sched ks i).IterationOrder (sched i)

/-! ## Reference semantics used to state the properties -/

/-- The breach criterion of `CheckPriceBreach` for one entry, read off the `switch`. -/
def breaches (price : ℚ) (key : KeyLevel) : Bool :=
  key.Active &&
    (if key.Type_ = LevelType then decide (price ≤ key.Level)
     else if key.Type_ = RangeType ∨ key.Type_ = FVGType then rangeHit price key
     else if key.Type_ = MSBType then msbHit price key
     else false)

/-- The only change `CheckPriceBreach` makes to an entry: an active `level` entry with
`price ≤ Level` gets `Active = false`. -/
def deactivate (price : ℚ) (key : KeyLevel) : KeyLevel :=
  if key.Active = true ∧ key.Type_ = LevelType ∧ price ≤ key.Level then
    { key with Active := false }
  else key

/-- What visiting the names in `order` does to one stored binding. -/
def sweep (price : ℚ) (order : List String) (e : String × KeyLevel) : String × KeyLevel :=
  if e.1 ∈ order then (e.1, deactivate price e.2) else e

/-- What visiting `name` contributes to the slice `breached`. -/
def reported (price : ℚ) (ks : KeyStore) (name : String) : Option KeyLevel :=
  match ks.levels.get name with
  | some key => if breaches price key then some key else none
  | none => none

/-- Every entry carries the name it is stored under. -/
def KeyStore.NameConsistent (ks : KeyStore) : Prop :=
  ∀ name key, ks.levels.get name = some key → key.Name = name

/-- The record `AddMSB` stores. -/
def msbEntry (name msbType : String) (breakPoint : ℚ) (candlestick : Candle) : KeyLevel :=
  { Name := name, MSB := some { Type_ := msbType, BreakPoint := breakPoint },
    Type_ := MSBType, Active := true, Timestamp := candlestick.Timestamp }

/-- How many of the seven optional payload fields of an entry are populated. -/
def payloadCount (e : KeyLevel) : Nat :=
  e.Range.isSome.toNat + e.Candlestick.isSome.toNat + e.FVG.isSome.toNat + e.MSB.isSome.toNat
    + e.OrderBlock.isSome.toNat + e.SwingLow.isSome.toNat + e.SwingHigh.isSome.toNat

/-- The optional payload field named by the entry's `Type` is populated (a type that names
none of the seven optional fields gives `false`). -/
def typedPayloadPresent (e : KeyLevel) : Bool :=
  if e.Type_ = RangeType then e.Range.isSome
  else if e.Type_ = CandlestickType then e.Candlestick.isSome
  else if e.Type_ = FVGType then e.FVG.isSome
  else if e.Type_ = MSBType then e.MSB.isSome
  else if e.Type_ = OrderBlockType then e.OrderBlock.isSome
  else if e.Type_ = SwingLowType then e.SwingLow.isSome
  else if e.Type_ = SwingHighType then e.SwingHigh.isSome
  else false

/-- The tagged-union invariant for the entry `e` stored under `name`. -/
def WellTagged (name : String) (e : KeyLevel) : Prop :=
  payloadCount e = 1 ∧ typedPayloadPresent e = true ∧ e.Name = name

/-- The cache states reachable from `NewKeyStore()` through the public operations.  The
visiting order of a `CheckPriceBreach` call is left arbitrary, so every state Go can reach
is covered. -/
inductive Reachable : KeyStore → Prop
  | newKeyStore : Reachable NewKeyStore
  | addFVG (ks : KeyStore) (name : String) (low high : ℚ) (c : Candle) :
      Reachable ks → Reachable (ks.AddFVG name low high c)
  | addMSB (ks : KeyStore) (name msbType : String) (breakPoint : ℚ) (c : Candle) :
      Reachable ks → Reachable (ks.AddMSB name msbType breakPoint c)
  | addOrderBlock (ks : KeyStore) (name blockType : String) (c : Candle) :
      Reachable ks → Reachable (ks.AddOrderBlock name blockType c)
  | addSwingLow (ks : KeyStore) (name blockType : String) (c : Candle) :
      Reachable ks → Reachable (ks.AddSwingLow name blockType c)
  | addSwingHigh (ks : KeyStore) (name blockType : String) (c : Candle) :
      Reachable ks → Reachable (ks.AddSwingHigh name blockType c)
  | checkPriceBreach (ks : KeyStore) (order : List String) (price : ℚ) :
      Reachable ks → Reachable (ks.CheckPriceBreach order price).2

/-- The trade `Run` emits for a breach found at `candle`. -/
def sellTrade (candle : Candle) : Trade :=
  { Timestamp := candle.Timestamp, Type_ := "Sell", Price := candle.Low, Volume := 0 }

/-- The trades owed for candle `i`: one `sellTrade` per entry that
`CheckPriceBreach(candles[i].Low)` returns on the cache as it is at that candle. -/
def tradesAt (candles : List Candle) (sched : Nat → List String) (ks : KeyStore) (i : Nat) :
    List Trade :=
  match candles[i]? with
  | some candle =>
    ((cacheBefore candles sched ks i).CheckPriceBreach (sched i) candle.Low).1.map
      (fun _ => sellTrade candle)
  | none => []

/-- The calls `s.keyStore.AddSwingLow("", label, candle)` that `Run` makes while processing
candle `i`, in the order made: the swing-low detection first, then the swing-high one. -/
def swingCalls (candles : List Candle) (i : Nat) : List (String × Candle) :=
  match candles[i]? with
  | none => []
  | some candle =>
    let prevCandle : Option Candle := if i > 0 then candles[i - 1]? else none
    let nextCandle : Option Candle := if i < candles.length - 1 then candles[i + 1]? else none
    match prevCandle, nextCandle with
    | some p, some n =>
      (if candle.IsSwingLow p n then [("swingLow", candle)] else [])
        ++ (if candle.IsSwingHigh p n then [("swingHigh", candle)] else [])
    | _, _ => []

/-- All the swing insertions of one run, in the order made. -/
def allSwingCalls (candles : List Candle) : List (String × Candle) :=
  (List.range candles.length).flatMap (swingCalls candles)

/-- The record `AddSwingLow("", label, candle)` stores. -/
def swingLowEntry (label : String) (candle : Candle) : KeyLevel :=
  { Name := "", SwingLow := some { Type_ := label, Low := candle.Low },
    Type_ := SwingLowType, Active := true, Timestamp := candle.Timestamp }

/-- The cache states reachable from `NewKeyStore()` using only `AddFVG`, `AddOrderBlock`,
`AddSwingLow` and `AddSwingHigh`. -/
inductive ReachableWithoutMSB : KeyStore → Prop
  | newKeyStore : ReachableWithoutMSB NewKeyStore
  | addFVG (ks : KeyStore) (name : String) (low high : ℚ) (c : Candle) :
      ReachableWithoutMSB ks → ReachableWithoutMSB (ks.AddFVG name low high c)
  | addOrderBlock (ks : KeyStore) (name blockType : String) (c : Candle) :
      ReachableWithoutMSB ks → ReachableWithoutMSB (ks.AddOrderBlock name blockType c)
  | addSwingLow (ks : KeyStore) (name blockType : String) (c : Candle) :
      ReachableWithoutMSB ks → ReachableWithoutMSB (ks.AddSwingLow name blockType c)
  | addSwingHigh (ks : KeyStore) (name blockType : String) (c : Candle) :
      ReachableWithoutMSB ks → ReachableWithoutMSB (ks.AddSwingHigh name blockType c)

/-- What `CheckPriceBreach` can see of an entry stored by `AddFVG`, `AddOrderBlock`,
`AddSwingLow` or `AddSwingHigh`: its `Range` is nil and its type is fvg, orderBlock,
swingLow or swingHigh. -/
def QuietEntry (e : KeyLevel) : Prop :=
  e.Range = none ∧
    (e.Type_ = FVGType ∨ e.Type_ = OrderBlockType ∨ e.Type_ = SwingLowType
      ∨ e.Type_ = SwingHighType)

/-- The entry `e` stored under `name` is the record `AddMSB` makes for that name, or is
quiet. -/
def PublicEntry (name : String) (e : KeyLevel) : Prop :=
  (∃ d b c, e = msbEntry name d b c) ∨ QuietEntry e

/-! ## Concrete inputs used in the examples -/

/-- An active `level` entry at 100. -/
def supportLevel : KeyLevel :=
  { Name := "support", Level := 100, Type_ := LevelType, Active := true, Timestamp := 1 }

/-- A cache holding only `supportLevel`, under its own name. -/
def supportStore : KeyStore := ⟨GoMap.empty.set "support" supportLevel⟩

/-- A candle with low 95 and high 120 at instant 7. -/
def dipCandle : Candle :=
  { Timestamp := 7, Open := 110, High := 120, Low := 95, Close := 100, Volume := 3 }

/-- A candle with low 90 and high 99 at instant 8. -/
def dropCandle : Candle :=
  { Timestamp := 8, Open := 98, High := 99, Low := 90, Close := 91, Volume := 5 }

/-- A cache with the level `supportLevel` and a bearish break at 100. -/
def twoEntryStore : KeyStore := supportStore.AddMSB "break" "bearish" 100 dipCandle

/-- Three candles with rising lows 10, 12, 14 and highs 20, 30, 25: the middle one is a
swing high and no candle is a swing low. -/
def peakCandles : List Candle :=
  [ { Timestamp := 1, Open := 15, High := 20, Low := 10, Close := 18, Volume := 1 },
    { Timestamp := 2, Open := 18, High := 30, Low := 12, Close := 22, Volume := 1 },
    { Timestamp := 3, Open := 22, High := 25, Low := 14, Close := 16, Volume := 1 } ]

/-- A strong down candle: open 100, close 85, low 80, high 105. -/
def strongDownCandle : Candle :=
  { Timestamp := 1, Open := 100, High := 105, Low := 80, Close := 85, Volume := 1 }

/-- A down candle whose decline is exactly half its range: open 100, close 90, low 85,
high 105. -/
def halfDownCandle : Candle :=
  { Timestamp := 1, Open := 100, High := 105, Low := 85, Close := 90, Volume := 1 }

/-- A candle value with high = low = 100, open 99 and close 101. -/
def flatRangeCandle : Candle :=
  { Timestamp := 1, Open := 99, High := 100, Low := 100, Close := 101, Volume := 1 }

/-- Candle A of the fair-value-gap examples: low 100, high 110. -/
def gapCandleA : Candle :=
  { Timestamp := 1, Open := 101, High := 110, Low := 100, Close := 109, Volume := 1 }

/-- Candle B with a gap above A: low 115, high 120. -/
def gapCandleB : Candle :=
  { Timestamp := 2, Open := 116, High := 120, Low := 115, Close := 119, Volume := 1 }

/-- Candle B overlapping A: low 105, high 120. -/
def overlapCandleB : Candle :=
  { Timestamp := 2, Open := 106, High := 120, Low := 105, Close := 119, Volume := 1 }

/-- A data handler holding `dipCandle` (instant 7) and `dropCandle` (instant 8) under "1d". -/
def twoCandleHandler : DataHandler := NewDataHandler.AddCandles "1d" [dipCandle, dropCandle]

/-- Five candles with lows 50, 40, 45, 38, 52 and highs 60, 55, 58, 50, 62: a swing low at
index 1, a swing high at index 2 and a swing low at index 3. -/
def zigzagCandles : List Candle :=
  [ { Timestamp := 1, Open := 55, High := 60, Low := 50, Close := 52, Volume := 1 },
    { Timestamp := 2, Open := 52, High := 55, Low := 40, Close := 44, Volume := 1 },
    { Timestamp := 3, Open := 44, High := 58, Low := 45, Close := 47, Volume := 1 },
    { Timestamp := 4, Open := 47, High := 50, Low := 38, Close := 49, Volume := 1 },
    { Timestamp := 5, Open := 49, High := 62, Low := 52, Close := 60, Volume := 1 } ]

/-- A cache built with `AddFVG` and `AddOrderBlock` only: a gap 100..110 and an order
block. -/
def quietStore : KeyStore :=
  (NewKeyStore.AddFVG "gap" 100 110 dipCandle).AddOrderBlock "ob" "bullish" dipCandle

/-- A candle at instant 7 expressed in another Location, with low 94. -/
def dipCandleElsewhere : Candle :=
  { Timestamp := { instant := 7, loc := 1 }, Open := 110, High := 120, Low := 94,
    Close := 100, Volume := 3 }

/-- A data handler holding under "1d" two candles of the one instant 7, in two Locations. -/
def sameInstantHandler : DataHandler :=
  NewDataHandler.AddCandles "1d" [dipCandle, dipCandleElsewhere]

/-! ## Facts about Go maps -/

theorem GoMap.eq_of_entries {κ ν : Type} {a b : GoMap κ ν} (h : a.entries = b.entries) : a = b := by
  cases a; cases b; cases h; rfl

theorem KeyStore.eq_of_levels_entries {a b : KeyStore} (h : a.levels.entries = b.levels.entries) :
    a = b := by
  cases a; cases b
  simp only [KeyStore.mk.injEq]
  exact GoMap.eq_of_entries h

theorem lookupKey_eq_none_iff {κ ν : Type} [DecidableEq κ] (k : κ) (l : List (κ × ν)) :
    lookupKey k l = none ↔ k ∉ l.map Prod.fst := by
  induction l with
  | nil => simp [lookupKey]
  | cons e t ih =>
    by_cases he : e.1 = k
    · simp [lookupKey, he]
    · have hne : ¬ k = e.1 := fun h => he h.symm
      simp [lookupKey, he, hne, ih]

theorem lookupKey_mem {κ ν : Type} [DecidableEq κ] {k : κ} {v : ν} {l : List (κ × ν)}
    (h : lookupKey k l = some v) : (k, v) ∈ l := by
  induction l with
  | nil => simp [lookupKey] at h
  | cons e t ih =>
    by_cases he : e.1 = k
    · simp only [lookupKey, he, if_true, Option.some.injEq] at h
      have : e = (k, v) := by
        cases e
        simp_all
      simp [this]
    · simp only [lookupKey, he, if_false] at h
      exact List.mem_cons_of_mem _ (ih h)

theorem lookupKey_of_mem {κ ν : Type} [DecidableEq κ] {k : κ} {v : ν} {l : List (κ × ν)}
    (hnd : (l.map Prod.fst).Nodup) (h : (k, v) ∈ l) : lookupKey k l = some v := by
  induction l with
  | nil => simp at h
  | cons e t ih =>
    simp only [List.map_cons, List.nodup_cons] at hnd
    rcases List.mem_cons.mp h with h1 | h1
    · subst h1
      simp [lookupKey]
    · have hk : k ∈ t.map Prod.fst := List.mem_map.mpr ⟨(k, v), h1, rfl⟩
      have he : e.1 ≠ k := fun hc => hnd.1 (hc ▸ hk)
      simp only [lookupKey, he, if_false]
      exact ih hnd.2 h1

theorem lookupKey_map {κ ν : Type} [DecidableEq κ] (k : κ) (g : κ → ν → ν)
    (l : List (κ × ν)) :
    lookupKey k (l.map (fun e => (e.1, g e.1 e.2))) = (lookupKey k l).map (g k) := by
  induction l with
  | nil => simp [lookupKey]
  | cons e t ih =>
    by_cases he : e.1 = k
    · simp [lookupKey, he]
    · simp only [List.map_cons, lookupKey, he, if_false]
      exact ih

theorem lookupKey_append {κ ν : Type} [DecidableEq κ] (k : κ) (l r : List (κ × ν)) :
    lookupKey k (l ++ r) = (lookupKey k l).orElse (fun _ => lookupKey k r) := by
  induction l with
  | nil => simp [lookupKey]
  | cons e t ih =>
    by_cases he : e.1 = k
    · simp [lookupKey, he]
    · simp only [List.cons_append, lookupKey, he, if_false]
      exact ih

theorem GoMap.mem_keys_iff {κ ν : Type} [DecidableEq κ] (m : GoMap κ ν) (k : κ) :
    k ∈ m.keys ↔ ∃ v, m.get k = some v := by
  unfold GoMap.keys GoMap.get
  constructor
  · intro h
    cases hl : lookupKey k m.entries with
    | none => exact absurd h ((lookupKey_eq_none_iff k m.entries).mp hl)
    | some v => exact ⟨v, rfl⟩
  · rintro ⟨v, hv⟩
    by_contra hc
    rw [(lookupKey_eq_none_iff k m.entries).mpr hc] at hv
    cases hv

theorem GoMap.get_set_self {κ ν : Type} [DecidableEq κ] (m : GoMap κ ν) (k : κ) (v : ν) :
    (m.set k v).get k = some v := by
  unfold GoMap.set GoMap.get
  split
  · rename_i h
    simp only
    have : m.entries.map (fun e => if e.1 = k then (k, v) else e)
        = m.entries.map (fun e => (e.1, (fun a b => if a = k then v else b) e.1 e.2)) := by
      apply List.map_congr_left
      intro e _
      by_cases he : e.1 = k
      · simp [he]
      · simp [he]
    rw [this, lookupKey_map k (fun a b => if a = k then v else b)]
    obtain ⟨w, hw⟩ := (GoMap.mem_keys_iff m k).mp h
    unfold GoMap.get at hw
    simp [hw]
  · rename_i h
    simp only
    rw [lookupKey_append, (lookupKey_eq_none_iff k m.entries).mpr h]
    simp [lookupKey]

theorem GoMap.get_set_ne {κ ν : Type} [DecidableEq κ] (m : GoMap κ ν) (k : κ) (v : ν)
    {k' : κ} (hne : k' ≠ k) : (m.set k v).get k' = m.get k' := by
  unfold GoMap.set GoMap.get
  split
  · simp only
    have : m.entries.map (fun e => if e.1 = k then (k, v) else e)
        = m.entries.map (fun e => (e.1, (fun a b => if a = k then v else b) e.1 e.2)) := by
      apply List.map_congr_left
      intro e _
      by_cases he : e.1 = k
      · simp [he]
      · simp [he]
    rw [this, lookupKey_map k' (fun a b => if a = k then v else b)]
    simp [hne]
  · simp only
    rw [lookupKey_append]
    simp [lookupKey, Ne.symm hne]

theorem msb_ne_level : ¬ MSBType = LevelType := by decide

theorem msb_ne_range_fvg : ¬ (MSBType = RangeType ∨ MSBType = FVGType) := by decide

theorem breachBody_fst (price : ℚ) (st : List KeyLevel × KeyStore) (name : String) :
    (breachBody price st name).1 = st.1 ++ (reported price st.2 name).toList := by
  unfold breachBody reported
  cases hget : st.2.levels.get name with
  | none => simp
  | some key =>
    simp only [breaches]
    by_cases hA : key.Active = true
    · by_cases h1 : key.Type_ = LevelType
      · by_cases h2 : price ≤ key.Level
        · simp [hA, h1, h2]
        · simp [hA, h1, h2]
      · by_cases h3 : key.Type_ = RangeType ∨ key.Type_ = FVGType
        · by_cases h4 : rangeHit price key = true
          · simp [hA, h1, h3, h4]
          · simp [hA, h1, h3, h4]
        · by_cases h5 : key.Type_ = MSBType
          · by_cases h6 : msbHit price key = true
            · simp [hA, h5, h6, msb_ne_level, msb_ne_range_fvg]
            · simp [hA, h5, h6, msb_ne_level, msb_ne_range_fvg]
          · simp [hA, h1, h3, h5]
    · simp [hA]

theorem breachBody_snd (price : ℚ) (st : List KeyLevel × KeyStore) (name : String)
    (key : KeyLevel) (hget : st.2.levels.get name = some key) :
    (breachBody price st name).2 =
      if key.Active = true ∧ key.Type_ = LevelType ∧ price ≤ key.Level then
        ⟨st.2.levels.set name { key with Active := false }⟩
      else st.2 := by
  unfold breachBody
  rw [hget]
  by_cases hA : key.Active = true
  · by_cases h1 : key.Type_ = LevelType
    · by_cases h2 : price ≤ key.Level
      · simp [hA, h1, h2]
      · simp [hA, h1, h2]
    · by_cases h3 : key.Type_ = RangeType ∨ key.Type_ = FVGType
      · by_cases h4 : rangeHit price key = true
        · simp [hA, h1, h3, h4]
        · simp [hA, h1, h3, h4]
      · by_cases h5 : key.Type_ = MSBType
        · by_cases h6 : msbHit price key = true
          · simp [hA, h5, h6, msb_ne_level, msb_ne_range_fvg]
          · simp [hA, h5, h6, msb_ne_level, msb_ne_range_fvg]
        · simp [hA, h1, h3, h5]
  · simp [hA]

theorem sweep_eq_self_of_ne (price : ℚ) (name : String) (e : String × KeyLevel)
    (h : e.1 ≠ name) : sweep price [name] e = e := by
  simp [sweep, h]

theorem breachBody_entries (price : ℚ) (st : List KeyLevel × KeyStore) (name : String) :
    (breachBody price st name).2.levels.entries
      = st.2.levels.entries.map (sweep price [name]) := by
  cases hget : st.2.levels.get name with
  | none =>
    have hid : (breachBody price st name) = st := by
      unfold breachBody
      rw [hget]
    rw [hid]
    have hnot : name ∉ st.2.levels.entries.map Prod.fst :=
      (lookupKey_eq_none_iff name _).mp hget
    symm
    calc st.2.levels.entries.map (sweep price [name])
        = st.2.levels.entries.map id := by
          apply List.map_congr_left
          intro e he
          exact sweep_eq_self_of_ne price name e
            (fun hc => hnot (hc ▸ List.mem_map.mpr ⟨e, he, rfl⟩))
      _ = st.2.levels.entries := List.map_id _
  | some key =>
    have hval : ∀ a b, (a, b) ∈ st.2.levels.entries → a = name → b = key := by
      intro a b he hn
      have h1 : lookupKey a st.2.levels.entries = some b :=
        lookupKey_of_mem st.2.levels.nodupKeys he
      rw [hn] at h1
      unfold GoMap.get at hget
      rw [hget] at h1
      exact (Option.some.inj h1).symm
    have hmem : name ∈ st.2.levels.entries.map Prod.fst :=
      (GoMap.mem_keys_iff st.2.levels name).mpr ⟨key, hget⟩
    rw [breachBody_snd price st name key hget]
    by_cases hc : key.Active = true ∧ key.Type_ = LevelType ∧ price ≤ key.Level
    · rw [if_pos hc]
      simp only [GoMap.set, hmem, dif_pos]
      apply List.map_congr_left
      rintro ⟨a, b⟩ he
      by_cases hn : a = name
      · have h2 := hval a b he hn
        subst h2
        simp [sweep, hn, deactivate, hc]
      · simp [sweep, hn]
    · rw [if_neg hc]
      symm
      calc st.2.levels.entries.map (sweep price [name])
          = st.2.levels.entries.map id := by
            apply List.map_congr_left
            rintro ⟨a, b⟩ he
            by_cases hn : a = name
            · have h2 := hval a b he hn
              subst h2
              have : deactivate price b = b := by
                unfold deactivate
                rw [if_neg hc]
              simp [sweep, hn, this]
            · simp [sweep, hn]
        _ = st.2.levels.entries := List.map_id _

/-! ## The whole pass of `CheckPriceBreach` -/

theorem deactivate_idem (price : ℚ) (key : KeyLevel) :
    deactivate price (deactivate price key) = deactivate price key := by
  unfold deactivate
  by_cases hc : key.Active = true ∧ key.Type_ = LevelType ∧ price ≤ key.Level
  · simp [hc]
  · simp [hc]

theorem sweep_eq (price : ℚ) (order : List String) :
    sweep price order
      = fun e => (e.1, (fun a b => if a ∈ order then deactivate price b else b) e.1 e.2) := by
  funext e
  unfold sweep
  by_cases h : e.1 ∈ order
  · simp [h]
  · simp [h]

theorem sweep_cons (price : ℚ) (name : String) (rest : List String) (e : String × KeyLevel) :
    sweep price rest (sweep price [name] e) = sweep price (name :: rest) e := by
  unfold sweep
  by_cases hn : e.1 = name
  · by_cases hr : e.1 ∈ rest
    · simp [hn, hr, deactivate_idem]
    · have hr2 : name ∉ rest := hn ▸ hr
      simp [hn, hr2]
  · by_cases hr : e.1 ∈ rest
    · simp [hn, hr]
    · simp [hn, hr]

theorem foldl_breachBody_entries (price : ℚ) (order : List String)
    (st : List KeyLevel × KeyStore) :
    (order.foldl (breachBody price) st).2.levels.entries
      = st.2.levels.entries.map (sweep price order) := by
  induction order generalizing st with
  | nil =>
    simp only [List.foldl_nil]
    symm
    calc st.2.levels.entries.map (sweep price [])
        = st.2.levels.entries.map id := by
          apply List.map_congr_left
          intro e _
          simp [sweep]
      _ = st.2.levels.entries := List.map_id _
  | cons name rest ih =>
    rw [List.foldl_cons, ih, breachBody_entries, List.map_map]
    apply List.map_congr_left
    intro e _
    exact sweep_cons price name rest e

theorem get_of_entries_sweep (price : ℚ) (order : List String) (a b : KeyStore)
    (h : b.levels.entries = a.levels.entries.map (sweep price order)) (name : String) :
    b.levels.get name
      = (a.levels.get name).map (fun v => if name ∈ order then deactivate price v else v) := by
  unfold GoMap.get
  rw [h, sweep_eq, lookupKey_map name (fun a b => if a ∈ order then deactivate price b else b)]

theorem breachBody_get_ne (price : ℚ) (st : List KeyLevel × KeyStore) (name other : String)
    (hne : other ≠ name) :
    (breachBody price st name).2.levels.get other = st.2.levels.get other := by
  rw [get_of_entries_sweep price [name] st.2 _ (breachBody_entries price st name) other]
  cases st.2.levels.get other with
  | none => rfl
  | some v => simp [hne]

theorem reported_breachBody_ne (price : ℚ) (st : List KeyLevel × KeyStore) (name other : String)
    (hne : other ≠ name) :
    reported price (breachBody price st name).2 other = reported price st.2 other := by
  unfold reported
  rw [breachBody_get_ne price st name other hne]

theorem foldl_breachBody_fst (price : ℚ) (order : List String) (hnd : order.Nodup)
    (st : List KeyLevel × KeyStore) :
    (order.foldl (breachBody price) st).1 = st.1 ++ order.filterMap (reported price st.2) := by
  induction order generalizing st with
  | nil => simp
  | cons name rest ih =>
    rw [List.nodup_cons] at hnd
    rw [List.foldl_cons, ih hnd.2, breachBody_fst]
    have hrest : rest.filterMap (reported price (breachBody price st name).2)
        = rest.filterMap (reported price st.2) := by
      apply List.filterMap_congr
      intro other ho
      exact reported_breachBody_ne price st name other (fun hc => hnd.1 (hc ▸ ho))
    rw [hrest]
    cases hr : reported price st.2 name with
    | none => simp [List.filterMap_cons, hr]
    | some key => simp [List.filterMap_cons, hr]

theorem CheckPriceBreach_entries (ks : KeyStore) (order : List String) (price : ℚ) :
    (ks.CheckPriceBreach order price).2.levels.entries
      = ks.levels.entries.map (sweep price order) :=
  foldl_breachBody_entries price order ([], ks)

theorem CheckPriceBreach_keys (ks : KeyStore) (order : List String) (price : ℚ) :
    (ks.CheckPriceBreach order price).2.levels.keys = ks.levels.keys := by
  unfold GoMap.keys
  rw [CheckPriceBreach_entries, sweep_eq, List.map_map]
  rfl

theorem CheckPriceBreach_get (ks : KeyStore) (order : List String) (price : ℚ)
    (horder : ks.IterationOrder order) (name : String) :
    (ks.CheckPriceBreach order price).2.levels.get name
      = (ks.levels.get name).map (deactivate price) := by
  rw [get_of_entries_sweep price order ks _ (CheckPriceBreach_entries ks order price) name]
  cases hget : ks.levels.get name with
  | none => rfl
  | some v =>
    have hmem : name ∈ order :=
      (List.Perm.mem_iff horder).mpr ((GoMap.mem_keys_iff ks.levels name).mpr ⟨v, hget⟩)
    simp [hmem]

theorem IterationOrder.nodup {ks : KeyStore} {order : List String}
    (horder : ks.IterationOrder order) : order.Nodup :=
  (List.Perm.nodup_iff horder).mpr ks.levels.nodupKeys

theorem CheckPriceBreach_fst (ks : KeyStore) (order : List String) (price : ℚ)
    (horder : ks.IterationOrder order) :
    (ks.CheckPriceBreach order price).1 = order.filterMap (reported price ks) := by
  unfold KeyStore.CheckPriceBreach
  rw [foldl_breachBody_fst price order (IterationOrder.nodup horder)]
  rfl

theorem mem_CheckPriceBreach_iff (ks : KeyStore) (order : List String) (price : ℚ)
    (horder : ks.IterationOrder order) (e : KeyLevel) :
    e ∈ (ks.CheckPriceBreach order price).1
      ↔ ∃ name, ks.levels.get name = some e ∧ breaches price e = true := by
  rw [CheckPriceBreach_fst ks order price horder, List.mem_filterMap]
  constructor
  · rintro ⟨name, _, hrep⟩
    refine ⟨name, ?_⟩
    unfold reported at hrep
    cases hget : ks.levels.get name with
    | none => simp [hget] at hrep
    | some key =>
      rw [hget] at hrep
      by_cases hb : breaches price key = true
      · simp only [hb, if_true, Option.some.injEq] at hrep
        subst hrep
        exact ⟨rfl, hb⟩
      · simp [hb] at hrep
  · rintro ⟨name, hget, hb⟩
    refine ⟨name, ?_, ?_⟩
    · exact (List.Perm.mem_iff horder).mpr ((GoMap.mem_keys_iff ks.levels name).mpr ⟨e, hget⟩)
    · unfold reported
      rw [hget]
      simp [hb]

/-! ## Order independence of one pass -/

theorem checkPriceBreach_perm (ks : KeyStore) (order1 order2 : List String)
    (p : ℚ) (h1 : ks.IterationOrder order1) (h2 : ks.IterationOrder order2) :
    (ks.CheckPriceBreach order1 p).2 = (ks.CheckPriceBreach order2 p).2 ∧
    (ks.CheckPriceBreach order1 p).1.Perm (ks.CheckPriceBreach order2 p).1 := by
  constructor
  · apply KeyStore.eq_of_levels_entries
    rw [CheckPriceBreach_entries, CheckPriceBreach_entries]
    apply List.map_congr_left
    intro e he
    have hk : e.1 ∈ ks.levels.keys := List.mem_map.mpr ⟨e, he, rfl⟩
    have m1 : e.1 ∈ order1 := (List.Perm.mem_iff h1).mpr hk
    have m2 : e.1 ∈ order2 := (List.Perm.mem_iff h2).mpr hk
    simp [sweep, m1, m2]
  · rw [CheckPriceBreach_fst ks order1 p h1, CheckPriceBreach_fst ks order2 p h2]
    exact List.Perm.filterMap _ (h1.trans h2.symm)

/-! ## Name consistency -/

theorem NameConsistent_CheckPriceBreach (ks : KeyStore) (order : List String) (price : ℚ)
    (hnc : ks.NameConsistent) : (ks.CheckPriceBreach order price).2.NameConsistent := by
  intro name key hget
  rw [get_of_entries_sweep price order ks _ (CheckPriceBreach_entries ks order price) name] at hget
  cases hk : ks.levels.get name with
  | none => simp [hk] at hget
  | some v =>
    rw [hk] at hget
    simp only [Option.map_some', Option.some.injEq] at hget
    have hv := hnc name v hk
    rw [← hget]
    by_cases hm : name ∈ order
    · simp only [hm, if_true]
      unfold deactivate
      split
      · exact hv
      · exact hv
    · simp only [hm, if_false]
      exact hv

/-! ## C1 -/

/-- C1. One-shot breach of level entries: when the cache holds, under name `n`, an active
entry `k` of type level and `p ≤ k.Level`, the first `CheckPriceBreach(p)` returns `k` and
leaves it stored inactive; every entry returned by a second `CheckPriceBreach(q)` made right
afterwards is stored under a name other than `n`, so in a cache whose entries carry their own
names no returned entry is named `n`. -/
theorem C1_level_breach_is_one_shot (ks : KeyStore) (n : String) (k : KeyLevel) (p q : ℚ)
    (order1 order2 : List String)
    (hget : ks.levels.get n = some k) (hact : k.Active = true) (htype : k.Type_ = LevelType)
    (hp : p ≤ k.Level)
    (h1 : ks.IterationOrder order1)
    (h2 : (ks.CheckPriceBreach order1 p).2.IterationOrder order2) :
    k ∈ (ks.CheckPriceBreach order1 p).1 ∧
    (ks.CheckPriceBreach order1 p).2.levels.get n = some { k with Active := false } ∧
    (∀ e ∈ ((ks.CheckPriceBreach order1 p).2.CheckPriceBreach order2 q).1,
      ∃ m, m ≠ n ∧ (ks.CheckPriceBreach order1 p).2.levels.get m = some e) ∧
    (ks.NameConsistent →
      ∀ e ∈ ((ks.CheckPriceBreach order1 p).2.CheckPriceBreach order2 q).1, e.Name ≠ n) := by
  have hafter : (ks.CheckPriceBreach order1 p).2.levels.get n
      = some { k with Active := false } := by
    rw [CheckPriceBreach_get ks order1 p h1 n, hget]
    simp [deactivate, hact, htype, hp]
  have hthird : ∀ e ∈ ((ks.CheckPriceBreach order1 p).2.CheckPriceBreach order2 q).1,
      ∃ m, m ≠ n ∧ (ks.CheckPriceBreach order1 p).2.levels.get m = some e := by
    intro e he
    obtain ⟨m, hm, hb⟩ := (mem_CheckPriceBreach_iff _ order2 q h2 e).mp he
    refine ⟨m, ?_, hm⟩
    intro hmn
    rw [hmn, hafter] at hm
    have hEq := Option.some.inj hm
    rw [← hEq] at hb
    simp [breaches] at hb
  refine ⟨?_, hafter, hthird, ?_⟩
  · refine (mem_CheckPriceBreach_iff ks order1 p h1 k).mpr ⟨n, hget, ?_⟩
    simp [breaches, hact, htype, hp]
  · intro hnc e he
    obtain ⟨m, hmn, hm⟩ := hthird e he
    have := NameConsistent_CheckPriceBreach ks order1 p hnc m e hm
    rw [this]
    exact hmn

/-- C1 at a concrete input: the level `supportLevel` (100) stored under "support", first
price 95, second price 95 again. -/
theorem C1_level_breach_is_one_shot_witness :
    supportStore.levels.get "support" = some supportLevel ∧
    supportLevel.Active = true ∧ supportLevel.Type_ = LevelType ∧
    (95 : ℚ) ≤ supportLevel.Level ∧
    supportLevel ∈ (supportStore.CheckPriceBreach ["support"] 95).1 ∧
    ((supportStore.CheckPriceBreach ["support"] 95).2.CheckPriceBreach ["support"] 95).1 = [] ∧
    (∀ e ∈ ((supportStore.CheckPriceBreach ["support"] 95).2.CheckPriceBreach ["support"] 95).1,
      ∃ m, m ≠ "support" ∧
        (supportStore.CheckPriceBreach ["support"] 95).2.levels.get m = some e) :=
  have h := C1_level_breach_is_one_shot supportStore "support" supportLevel 95 95
    ["support"] ["support"] (by decide) (by decide) (by decide) (by decide)
    (List.Perm.refl _) (List.Perm.refl _)
  ⟨by decide, by decide, by decide, by decide, h.1, by decide, h.2.2.1⟩

/-! ## C2 -/

/-- C2, evaluated on the code: after `AddFVG("gap", 100, 110, c)` on a fresh cache the entry
is stored active with its bounds in the field `FVG` and with `Range` nil, and
`CheckPriceBreach(105)`, a price inside the gap, returns nothing: the `fvg` arm of the
`switch` reads `key.Range`, which `AddFVG` never sets. -/
theorem C2_fvg_entry_is_never_reported :
    (100 : ℚ) ≤ 105 ∧ (105 : ℚ) ≤ 110 ∧
    (NewKeyStore.AddFVG "gap" 100 110 dipCandle).levels.get "gap"
      = some { Name := "gap", FVG := some { Low := 100, High := 110 }, Range := none,
               Type_ := FVGType, Active := true, Timestamp := 7 } ∧
    (NewKeyStore.AddFVG "gap" 100 110 dipCandle).levels.keys = ["gap"] ∧
    ((NewKeyStore.AddFVG "gap" 100 110 dipCandle).CheckPriceBreach ["gap"] 105).1 = [] := by
  decide

/-! ## C3 -/

theorem NameConsistent_set (ks : KeyStore) (name : String) (v : KeyLevel)
    (hnc : ks.NameConsistent) (hv : v.Name = name) :
    KeyStore.NameConsistent ⟨ks.levels.set name v⟩ := by
  intro other key hget
  by_cases ho : other = name
  · subst ho
    rw [GoMap.get_set_self] at hget
    rw [← Option.some.inj hget]
    exact hv
  · rw [GoMap.get_set_ne ks.levels name v ho] at hget
    exact hnc other key hget

theorem breaches_msbEntry (name d : String) (b : ℚ) (c : Candle) (p : ℚ) :
    breaches p (msbEntry name d b c) = true
      ↔ (d = "bullish" ∧ p > b) ∨ (d = "bearish" ∧ p < b) := by
  simp [breaches, msbEntry, msbHit, msb_ne_level, msb_ne_range_fvg]

/-- C3. Market-structure-break criterion: after `AddMSB(n, d, b, c)` the entry stored under
`n` is `msbEntry n d b c`; `CheckPriceBreach(p)` returns it if and only if
(`d = "bullish"` and `p > b`) or (`d = "bearish"` and `p < b`) (in a cache whose entries carry
their own names: it returns an entry named `n` exactly then); after the call the entry is
still stored under `n`, unchanged and active. -/
theorem C3_msb_breach_criterion (ks : KeyStore) (n d : String) (b : ℚ) (c : Candle) (p : ℚ)
    (order : List String) (horder : (ks.AddMSB n d b c).IterationOrder order) :
    (ks.AddMSB n d b c).levels.get n = some (msbEntry n d b c) ∧
    (msbEntry n d b c ∈ ((ks.AddMSB n d b c).CheckPriceBreach order p).1
      ↔ (d = "bullish" ∧ p > b) ∨ (d = "bearish" ∧ p < b)) ∧
    (ks.NameConsistent →
      ((∃ x ∈ ((ks.AddMSB n d b c).CheckPriceBreach order p).1, x.Name = n)
        ↔ (d = "bullish" ∧ p > b) ∨ (d = "bearish" ∧ p < b))) ∧
    ((ks.AddMSB n d b c).CheckPriceBreach order p).2.levels.get n = some (msbEntry n d b c) ∧
    (msbEntry n d b c).Active = true := by
  have hget : (ks.AddMSB n d b c).levels.get n = some (msbEntry n d b c) := by
    unfold KeyStore.AddMSB msbEntry
    exact GoMap.get_set_self _ _ _
  have hiff : msbEntry n d b c ∈ ((ks.AddMSB n d b c).CheckPriceBreach order p).1
      ↔ (d = "bullish" ∧ p > b) ∨ (d = "bearish" ∧ p < b) := by
    rw [mem_CheckPriceBreach_iff _ order p horder, ← breaches_msbEntry n d b c p]
    constructor
    · rintro ⟨_, _, hb⟩
      exact hb
    · intro hb
      exact ⟨n, hget, hb⟩
  refine ⟨hget, hiff, ?_, ?_, rfl⟩
  · intro hnc
    have hnc1 : (ks.AddMSB n d b c).NameConsistent := by
      unfold KeyStore.AddMSB
      exact NameConsistent_set ks n _ hnc rfl
    constructor
    · rintro ⟨x, hx, hname⟩
      obtain ⟨m, hm, _⟩ := (mem_CheckPriceBreach_iff _ order p horder x).mp hx
      have hmn : m = n := (hnc1 m x hm).symm.trans hname
      rw [hmn, hget] at hm
      rw [← Option.some.inj hm] at hx
      exact hiff.mp hx
    · intro hc
      exact ⟨msbEntry n d b c, hiff.mpr hc, rfl⟩
  · rw [CheckPriceBreach_get _ order p horder n, hget]
    simp [deactivate, msbEntry, msb_ne_level]

/-- C3 at a concrete input: a bullish break at 100 added to the cache `supportStore`; the
price 105 is above the break point and the entry is returned. -/
theorem C3_msb_breach_criterion_witness :
    (supportStore.AddMSB "break" "bullish" 100 dipCandle).IterationOrder ["break", "support"] ∧
    msbEntry "break" "bullish" 100 dipCandle
      ∈ ((supportStore.AddMSB "break" "bullish" 100 dipCandle).CheckPriceBreach
          ["break", "support"] 105).1 ∧
    ((supportStore.AddMSB "break" "bullish" 100 dipCandle).CheckPriceBreach
        ["break", "support"] 105).2.levels.get "break"
      = some (msbEntry "break" "bullish" 100 dipCandle) :=
  have horder : (supportStore.AddMSB "break" "bullish" 100 dipCandle).IterationOrder
      ["break", "support"] := by
    unfold KeyStore.IterationOrder
    decide
  have h := C3_msb_breach_criterion supportStore "break" "bullish" 100 dipCandle 105
    ["break", "support"] horder
  ⟨horder, h.2.1.mpr (Or.inl ⟨rfl, by decide⟩), h.2.2.2.1⟩

/-! ## C4 -/

/-- C4. Every entry returned by `CheckPriceBreach(p)` is an entry the cache held before the
call, was active there, and has type level, range, fvg or msb; in particular none has type
orderBlock, swingLow or swingHigh. -/
theorem C4_only_active_breach_types_reported (ks : KeyStore) (order : List String) (p : ℚ)
    (horder : ks.IterationOrder order) :
    ∀ e ∈ (ks.CheckPriceBreach order p).1,
      (∃ name, ks.levels.get name = some e) ∧ e.Active = true ∧
      (e.Type_ = LevelType ∨ e.Type_ = RangeType ∨ e.Type_ = FVGType ∨ e.Type_ = MSBType) ∧
      e.Type_ ≠ OrderBlockType ∧ e.Type_ ≠ SwingLowType ∧ e.Type_ ≠ SwingHighType := by
  intro e he
  obtain ⟨name, hget, hb⟩ := (mem_CheckPriceBreach_iff ks order p horder e).mp he
  have hact : e.Active = true := by
    unfold breaches at hb
    simp only [Bool.and_eq_true] at hb
    exact hb.1
  have htype : e.Type_ = LevelType ∨ e.Type_ = RangeType ∨ e.Type_ = FVGType
      ∨ e.Type_ = MSBType := by
    by_cases h1 : e.Type_ = LevelType
    · exact Or.inl h1
    · by_cases h3 : e.Type_ = RangeType ∨ e.Type_ = FVGType
      · rcases h3 with h3 | h3
        · exact Or.inr (Or.inl h3)
        · exact Or.inr (Or.inr (Or.inl h3))
      · by_cases h5 : e.Type_ = MSBType
        · exact Or.inr (Or.inr (Or.inr h5))
        · simp [breaches, h1, h3, h5] at hb
  refine ⟨⟨name, hget⟩, hact, htype, ?_, ?_, ?_⟩
  · rcases htype with h | h | h | h <;> rw [h] <;> decide
  · rcases htype with h | h | h | h <;> rw [h] <;> decide
  · rcases htype with h | h | h | h <;> rw [h] <;> decide

/-- C4 at a concrete input: a cache with an active level, an order block and a swing low;
at price 95 only the level is returned. -/
theorem C4_only_active_breach_types_reported_witness :
    ((supportStore.AddOrderBlock "ob" "bullish" dipCandle).AddSwingLow "" "swingLow"
        dipCandle).IterationOrder ["", "ob", "support"] ∧
    (((supportStore.AddOrderBlock "ob" "bullish" dipCandle).AddSwingLow "" "swingLow"
        dipCandle).CheckPriceBreach ["", "ob", "support"] 95).1 = [supportLevel] ∧
    ∀ e ∈ (((supportStore.AddOrderBlock "ob" "bullish" dipCandle).AddSwingLow "" "swingLow"
        dipCandle).CheckPriceBreach ["", "ob", "support"] 95).1,
      (∃ name, ((supportStore.AddOrderBlock "ob" "bullish" dipCandle).AddSwingLow ""
        "swingLow" dipCandle).levels.get name = some e) ∧ e.Active = true ∧
      (e.Type_ = LevelType ∨ e.Type_ = RangeType ∨ e.Type_ = FVGType ∨ e.Type_ = MSBType) ∧
      e.Type_ ≠ OrderBlockType ∧ e.Type_ ≠ SwingLowType ∧ e.Type_ ≠ SwingHighType :=
  have horder : ((supportStore.AddOrderBlock "ob" "bullish" dipCandle).AddSwingLow ""
      "swingLow" dipCandle).IterationOrder ["", "ob", "support"] := by
    unfold KeyStore.IterationOrder
    decide
  ⟨horder, by decide,
    C4_only_active_breach_types_reported _ ["", "ob", "support"] 95 horder⟩

/-! ## C5 -/

/-- C5. Effect of insertion: after each of `AddFVG`, `AddMSB`, `AddOrderBlock`, `AddSwingLow`
and `AddSwingHigh`, on any cache, the entry stored under the given name is the record with
that name, the variant's type tag, the variant's payload built from the arguments and no
other payload, `Active = true` and the candle's timestamp; the binding of every other name
is what it was.  The operations are total functions, so they cannot fail. -/
theorem C5_insertion_effect (ks : KeyStore) (name d : String) (low high b : ℚ) (c : Candle) :
    ((ks.AddFVG name low high c).levels.get name
        = some { Name := name, Level := 0, Range := none, Candlestick := none,
                 FVG := some { Low := low, High := high }, MSB := none, OrderBlock := none,
                 SwingLow := none, SwingHigh := none, Type_ := "fvg", Active := true,
                 Timestamp := c.Timestamp } ∧
      ∀ other, other ≠ name → (ks.AddFVG name low high c).levels.get other
        = ks.levels.get other) ∧
    ((ks.AddMSB name d b c).levels.get name
        = some { Name := name, Level := 0, Range := none, Candlestick := none, FVG := none,
                 MSB := some { Type_ := d, BreakPoint := b }, OrderBlock := none,
                 SwingLow := none, SwingHigh := none, Type_ := "msb", Active := true,
                 Timestamp := c.Timestamp } ∧
      ∀ other, other ≠ name → (ks.AddMSB name d b c).levels.get other
        = ks.levels.get other) ∧
    ((ks.AddOrderBlock name d c).levels.get name
        = some { Name := name, Level := 0, Range := none, Candlestick := none, FVG := none,
                 MSB := none, OrderBlock := some { Type_ := d, Candlestick := c },
                 SwingLow := none, SwingHigh := none, Type_ := "orderBlock", Active := true,
                 Timestamp := c.Timestamp } ∧
      ∀ other, other ≠ name → (ks.AddOrderBlock name d c).levels.get other
        = ks.levels.get other) ∧
    ((ks.AddSwingLow name d c).levels.get name
        = some { Name := name, Level := 0, Range := none, Candlestick := none, FVG := none,
                 MSB := none, OrderBlock := none,
                 SwingLow := some { Type_ := d, Low := c.Low }, SwingHigh := none,
                 Type_ := "swingLow", Active := true, Timestamp := c.Timestamp } ∧
      ∀ other, other ≠ name → (ks.AddSwingLow name d c).levels.get other
        = ks.levels.get other) ∧
    ((ks.AddSwingHigh name d c).levels.get name
        = some { Name := name, Level := 0, Range := none, Candlestick := none, FVG := none,
                 MSB := none, OrderBlock := none, SwingLow := none,
                 SwingHigh := some { Type_ := d, High := c.High },
                 Type_ := "swingHigh", Active := true, Timestamp := c.Timestamp } ∧
      ∀ other, other ≠ name → (ks.AddSwingHigh name d c).levels.get other
        = ks.levels.get other) := by
  refine ⟨⟨?_, ?_⟩, ⟨?_, ?_⟩, ⟨?_, ?_⟩, ⟨?_, ?_⟩, ⟨?_, ?_⟩⟩
  · exact GoMap.get_set_self _ _ _
  · intro other ho
    exact GoMap.get_set_ne _ _ _ ho
  · exact GoMap.get_set_self _ _ _
  · intro other ho
    exact GoMap.get_set_ne _ _ _ ho
  · exact GoMap.get_set_self _ _ _
  · intro other ho
    exact GoMap.get_set_ne _ _ _ ho
  · exact GoMap.get_set_self _ _ _
  · intro other ho
    exact GoMap.get_set_ne _ _ _ ho
  · exact GoMap.get_set_self _ _ _
  · intro other ho
    exact GoMap.get_set_ne _ _ _ ho

/-! ## C6 -/

theorem wellTagged_set (ks : KeyStore) (name : String) (v : KeyLevel)
    (hks : ∀ n e, ks.levels.get n = some e → WellTagged n e) (hv : WellTagged name v) :
    ∀ n e, (ks.levels.set name v).get n = some e → WellTagged n e := by
  intro n e hget
  by_cases hn : n = name
  · subst hn
    rw [GoMap.get_set_self] at hget
    rw [← Option.some.inj hget]
    exact hv
  · rw [GoMap.get_set_ne ks.levels name v hn] at hget
    exact hks n e hget

theorem wellTagged_deactivate (price : ℚ) (name : String) (e : KeyLevel)
    (h : WellTagged name e) : WellTagged name (deactivate price e) := by
  unfold deactivate
  split
  · exact h
  · exact h

/-- C6. Tagged-union invariant: in every cache state reachable from `NewKeyStore()` by
`AddFVG`, `AddMSB`, `AddOrderBlock`, `AddSwingLow`, `AddSwingHigh` and `CheckPriceBreach`
calls, every stored entry has exactly one of its seven optional payload fields populated,
that field is the one named by the entry's `Type`, and the entry's `Name` is the key it is
stored under. -/
theorem C6_tagged_union_invariant (ks : KeyStore) (hreach : Reachable ks) :
    ∀ name e, ks.levels.get name = some e →
      payloadCount e = 1 ∧ typedPayloadPresent e = true ∧ e.Name = name := by
  induction hreach with
  | newKeyStore =>
    intro name e hget
    simp [NewKeyStore, GoMap.empty, GoMap.get, lookupKey] at hget
  | addFVG ks name low high c _ ih =>
    exact wellTagged_set ks name _ ih ⟨rfl, rfl, rfl⟩
  | addMSB ks name msbType breakPoint c _ ih =>
    exact wellTagged_set ks name _ ih ⟨rfl, rfl, rfl⟩
  | addOrderBlock ks name blockType c _ ih =>
    exact wellTagged_set ks name _ ih ⟨rfl, rfl, rfl⟩
  | addSwingLow ks name blockType c _ ih =>
    exact wellTagged_set ks name _ ih ⟨rfl, rfl, rfl⟩
  | addSwingHigh ks name blockType c _ ih =>
    exact wellTagged_set ks name _ ih ⟨rfl, rfl, rfl⟩
  | checkPriceBreach ks order price _ ih =>
    intro name e hget
    rw [get_of_entries_sweep price order ks _ (CheckPriceBreach_entries ks order price) name]
      at hget
    cases hk : ks.levels.get name with
    | none => simp [hk] at hget
    | some v =>
      rw [hk] at hget
      simp only [Option.map_some', Option.some.injEq] at hget
      rw [← hget]
      by_cases hm : name ∈ order
      · simp only [hm, if_true]
        exact wellTagged_deactivate price name v (ih name v hk)
      · simp only [hm, if_false]
        exact ih name v hk

/-- C6 at a concrete input: the state reached by `AddFVG`, `AddSwingHigh` and one
`CheckPriceBreach`; the entry under "top" has one payload, `SwingHigh`. -/
theorem C6_tagged_union_invariant_witness :
    Reachable (((NewKeyStore.AddFVG "gap" 100 110 dipCandle).AddSwingHigh "top" "swingHigh"
      dipCandle).CheckPriceBreach ["gap", "top"] 105).2 ∧
    payloadCount { Name := "top", SwingHigh := some { Type_ := "swingHigh", High := 120 },
                   Type_ := SwingHighType, Active := true, Timestamp := 7 } = 1 ∧
    typedPayloadPresent
      { Name := "top", SwingHigh := some { Type_ := "swingHigh", High := 120 },
        Type_ := SwingHighType, Active := true, Timestamp := 7 } = true :=
  have hreach : Reachable (((NewKeyStore.AddFVG "gap" 100 110 dipCandle).AddSwingHigh "top"
      "swingHigh" dipCandle).CheckPriceBreach ["gap", "top"] 105).2 :=
    Reachable.checkPriceBreach _ _ _
      (Reachable.addSwingHigh _ _ _ _ (Reachable.addFVG _ _ _ _ _ Reachable.newKeyStore))
  have h := C6_tagged_union_invariant _ hreach "top"
    { Name := "top", SwingHigh := some { Type_ := "swingHigh", High := 120 },
      Type_ := SwingHighType, Active := true, Timestamp := 7 } (by decide)
  ⟨hreach, h.1, h.2.1⟩

/-! ## C7 -/

/-- C7. Frame of breach checking: `CheckPriceBreach(p)` leaves the names of the cache as they
were; the entry stored under a name afterwards is the entry stored before with `Active` set
to false when it was active, of type level and `p ≤ Level`, and is the very same entry
otherwise.  In particular range, fvg and msb entries are identical before and after. -/
theorem C7_breach_check_frame (ks : KeyStore) (order : List String) (p : ℚ)
    (horder : ks.IterationOrder order) :
    (ks.CheckPriceBreach order p).2.levels.keys = ks.levels.keys ∧
    (∀ name, ks.levels.get name = none →
      (ks.CheckPriceBreach order p).2.levels.get name = none) ∧
    (∀ name e, ks.levels.get name = some e →
      (ks.CheckPriceBreach order p).2.levels.get name
        = some (if e.Active = true ∧ e.Type_ = LevelType ∧ p ≤ e.Level then
                  { e with Active := false }
                else e)) ∧
    (∀ name e, ks.levels.get name = some e →
      e.Type_ = RangeType ∨ e.Type_ = FVGType ∨ e.Type_ = MSBType →
      (ks.CheckPriceBreach order p).2.levels.get name = some e) := by
  refine ⟨CheckPriceBreach_keys ks order p, ?_, ?_, ?_⟩
  · intro name hget
    rw [CheckPriceBreach_get ks order p horder name, hget]
    rfl
  · intro name e hget
    rw [CheckPriceBreach_get ks order p horder name, hget]
    rfl
  · intro name e hget htype
    rw [CheckPriceBreach_get ks order p horder name, hget]
    have hne : ¬ e.Type_ = LevelType := by
      rcases htype with h | h | h <;> rw [h] <;> decide
    simp [deactivate, hne]

/-- C7 at a concrete input: a cache with a level at 100 and a bullish break at 100; at price
95 the level is deactivated and the break entry is untouched. -/
theorem C7_breach_check_frame_witness :
    (supportStore.AddMSB "break" "bullish" 100 dipCandle).IterationOrder ["support", "break"] ∧
    ((supportStore.AddMSB "break" "bullish" 100 dipCandle).CheckPriceBreach
        ["support", "break"] 95).2.levels.keys = ["support", "break"] ∧
    ((supportStore.AddMSB "break" "bullish" 100 dipCandle).CheckPriceBreach
        ["support", "break"] 95).2.levels.get "support"
      = some { supportLevel with Active := false } ∧
    ((supportStore.AddMSB "break" "bullish" 100 dipCandle).CheckPriceBreach
        ["support", "break"] 95).2.levels.get "break"
      = some (msbEntry "break" "bullish" 100 dipCandle) :=
  have h := C7_breach_check_frame (supportStore.AddMSB "break" "bullish" 100 dipCandle)
    ["support", "break"] 95 (List.Perm.refl _)
  ⟨List.Perm.refl _, h.1,
    h.2.2.1 "support" supportLevel (by decide),
    h.2.2.2 "break" (msbEntry "break" "bullish" 100 dipCandle) (by decide)
      (Or.inr (Or.inr rfl))⟩

/-! ## C8 -/

/-- C8. Order independence of breach checking: for any two orders in which the entries of
the cache may be visited, `CheckPriceBreach(p)` leaves the same cache and returns lists that
are permutations of each other. -/
theorem C8_breach_check_order_independent (ks : KeyStore) (order1 order2 : List String)
    (p : ℚ) (h1 : ks.IterationOrder order1) (h2 : ks.IterationOrder order2) :
    (ks.CheckPriceBreach order1 p).2 = (ks.CheckPriceBreach order2 p).2 ∧
    (ks.CheckPriceBreach order1 p).1.Perm (ks.CheckPriceBreach order2 p).1 :=
  checkPriceBreach_perm ks order1 order2 p h1 h2

/-- C8 at a concrete input: a level at 100 and a bearish break at 100, price 95, visited in
the two possible orders; both entries are returned, in the order visited. -/
theorem C8_breach_check_order_independent_witness :
    (supportStore.AddMSB "break" "bearish" 100 dipCandle).IterationOrder ["support", "break"] ∧
    (supportStore.AddMSB "break" "bearish" 100 dipCandle).IterationOrder ["break", "support"] ∧
    ((supportStore.AddMSB "break" "bearish" 100 dipCandle).CheckPriceBreach
        ["support", "break"] 95).1
      = [supportLevel, msbEntry "break" "bearish" 100 dipCandle] ∧
    ((supportStore.AddMSB "break" "bearish" 100 dipCandle).CheckPriceBreach
        ["break", "support"] 95).1
      = [msbEntry "break" "bearish" 100 dipCandle, supportLevel] ∧
    ((supportStore.AddMSB "break" "bearish" 100 dipCandle).CheckPriceBreach
        ["support", "break"] 95).2
      = ((supportStore.AddMSB "break" "bearish" 100 dipCandle).CheckPriceBreach
        ["break", "support"] 95).2 :=
  have hb : (supportStore.AddMSB "break" "bearish" 100 dipCandle).IterationOrder
      ["break", "support"] := by
    unfold KeyStore.IterationOrder
    decide
  have h := C8_breach_check_order_independent
    (supportStore.AddMSB "break" "bearish" 100 dipCandle)
    ["support", "break"] ["break", "support"] 95 (List.Perm.refl _) hb
  ⟨List.Perm.refl _, hb, by decide, by decide, h.1⟩

/-! ## The strategy loop -/

theorem foldl_append_const {α β : Type} (t : β) (l : List α) (init : List β) :
    l.foldl (fun acc _ => acc ++ [t]) init = init ++ l.map (fun _ => t) := by
  induction l generalizing init with
  | nil => simp
  | cons a rest ih => simp [List.foldl_cons, ih]

theorem runBody_fst (candles : List Candle) (sched : Nat → List String)
    (st : List Trade × KeyStore) (i : Nat) :
    (runBody candles sched st i).1
      = st.1 ++ (match candles[i]? with
          | some candle =>
            (st.2.CheckPriceBreach (sched i) candle.Low).1.map (fun _ => sellTrade candle)
          | none => []) := by
  unfold runBody
  cases candles[i]? with
  | none => simp
  | some candle =>
    simp only
    exact foldl_append_const _ _ _

theorem runBody_congr (candles : List Candle) (s1 s2 : Nat → List String)
    (st : List Trade × KeyStore) (i : Nat)
    (h1 : st.2.IterationOrder (s1 i)) (h2 : st.2.IterationOrder (s2 i)) :
    runBody candles s1 st i = runBody candles s2 st i := by
  unfold runBody
  cases candles[i]? with
  | none => rfl
  | some candle =>
    have h := checkPriceBreach_perm st.2 (s1 i) (s2 i) candle.Low h1 h2
    simp only
    rw [h.1, foldl_append_const, foldl_append_const]
    have hlen : (st.2.CheckPriceBreach (s1 i) candle.Low).1.map
          (fun _ => ({ Timestamp := candle.Timestamp, Type_ := "Sell", Price := candle.Low,
                       Volume := 0 } : Trade))
        = (st.2.CheckPriceBreach (s2 i) candle.Low).1.map
          (fun _ => ({ Timestamp := candle.Timestamp, Type_ := "Sell", Price := candle.Low,
                       Volume := 0 } : Trade)) := by
      rw [List.map_const', List.map_const', h.2.length_eq]
    rw [hlen]

theorem foldl_runBody_congr (candles : List Candle) (s1 s2 : Nat → List String)
    (ks : KeyStore) (h1 : ValidSchedule candles s1 ks) (h2 : ValidSchedule candles s2 ks)
    (k : Nat) (hk : k ≤ candles.length) :
    (List.range k).foldl (runBody candles s1) ([], ks)
      = (List.range k).foldl (runBody candles s2) ([], ks) := by
  induction k with
  | zero => rfl
  | succ k ih =>
    have ihk := ih (Nat.le_of_succ_le hk)
    have v1 := h1 k hk
    have v2 := h2 k hk
    unfold cacheBefore at v1 v2
    rw [← ihk] at v2
    rw [List.range_succ, List.foldl_append, List.foldl_append, ← ihk]
    simp only [List.foldl_cons, List.foldl_nil]
    exact runBody_congr candles s1 s2 _ k v1 v2

theorem foldl_runBody_fst (candles : List Candle) (sched : Nat → List String) (ks : KeyStore)
    (k : Nat) :
    ((List.range k).foldl (runBody candles sched) ([], ks)).1
      = (List.range k).flatMap (tradesAt candles sched ks) := by
  induction k with
  | zero => rfl
  | succ k ih =>
    rw [List.range_succ, List.foldl_append, List.flatMap_append]
    simp only [List.foldl_cons, List.foldl_nil, List.flatMap_cons, List.flatMap_nil,
      List.append_nil]
    rw [runBody_fst, ih]
    rfl

/-! ## C9 -/

/-- C9. Determinism of the strategy loop: for a fixed candle sequence and a fixed initial
cache, whatever visiting orders the calls of `CheckPriceBreach` follow, the loop of `Run`
returns the same trade list, element by element, and leaves the same cache; hence two runs
of `Run` that fetched the same candle sequence return the same result. -/
theorem C9_run_deterministic (candles : List Candle) (ks : KeyStore)
    (sched1 sched2 : Nat → List String)
    (h1 : ValidSchedule candles sched1 ks) (h2 : ValidSchedule candles sched2 ks) :
    runCandles candles sched1 ks = runCandles candles sched2 ks ∧
    ∀ (data : DataHandler) (timeframe : Timeframe) (candleOrder : List Time),
      data.GetCandlesByTimeframe timeframe candleOrder = .ok candles →
      ICTStrategy.Run ⟨ks⟩ data timeframe candleOrder sched1
        = ICTStrategy.Run ⟨ks⟩ data timeframe candleOrder sched2 := by
  have hloop : runCandles candles sched1 ks = runCandles candles sched2 ks :=
    foldl_runBody_congr candles sched1 sched2 ks h1 h2 candles.length (Nat.le_refl _)
  refine ⟨hloop, ?_⟩
  intro data timeframe candleOrder hfetch
  unfold ICTStrategy.Run
  rw [hfetch]
  simp only
  rw [hloop]

/-- C9 at a concrete input: a level at 100 and a bearish break at 100, two candles with lows
95 and 90, the cache visited in opposite orders in the two runs. -/
theorem C9_run_deterministic_witness :
    ValidSchedule [dipCandle, dropCandle] (fun _ => ["support", "break"]) twoEntryStore ∧
    ValidSchedule [dipCandle, dropCandle] (fun _ => ["break", "support"]) twoEntryStore ∧
    (runCandles [dipCandle, dropCandle] (fun _ => ["support", "break"]) twoEntryStore).1
      = [sellTrade dipCandle, sellTrade dipCandle, sellTrade dropCandle] ∧
    runCandles [dipCandle, dropCandle] (fun _ => ["support", "break"]) twoEntryStore
      = runCandles [dipCandle, dropCandle] (fun _ => ["break", "support"]) twoEntryStore :=
  have v1 : ValidSchedule [dipCandle, dropCandle] (fun _ => ["support", "break"])
      twoEntryStore := by
    unfold ValidSchedule KeyStore.IterationOrder
    decide
  have v2 : ValidSchedule [dipCandle, dropCandle] (fun _ => ["break", "support"])
      twoEntryStore := by
    unfold ValidSchedule KeyStore.IterationOrder
    decide
  ⟨v1, v2, by decide,
    (C9_run_deterministic [dipCandle, dropCandle] twoEntryStore _ _ v1 v2).1⟩

/-! ## C10 -/

/-- C10, the claim on the code at a concrete input: one active level at 100 and one candle
with low 95 give exactly one trade, and its side is the string "Sell", not "sell". -/
theorem C10_side_is_capitalised_counterexample :
    (ICTStrategy.Run ⟨supportStore⟩ (NewDataHandler.AddCandles "1d" [dipCandle]) "1d" [7]
        (fun _ => ["support"])).1
      = .ok [{ Timestamp := 7, Type_ := "Sell", Price := 95, Volume := 0 }] ∧
    (runCandles [dipCandle] (fun _ => ["support"]) supportStore).1
      = [{ Timestamp := 7, Type_ := "Sell", Price := 95, Volume := 0 }] ∧
    ¬ (∀ t ∈ (runCandles [dipCandle] (fun _ => ["support"]) supportStore).1,
        t.Type_ = "sell") := by
  refine ⟨rfl, ?_, ?_⟩
  · decide
  · decide

/-- C10, amended. Trades emitted per breach: the trade list `Run` returns is the one its loop
builds from the fetched candles, and that list is the concatenation, in candle order, of one trade per entry returned by
`CheckPriceBreach(curr.Low)` at that candle, and every such trade has the candle's
timestamp, price equal to the candle's low and side exactly the string "Sell". -/
theorem C10_trades_per_breach (candles : List Candle) (sched : Nat → List String)
    (ks : KeyStore) :
    (∀ (data : DataHandler) (timeframe : Timeframe) (candleOrder : List Time),
      data.GetCandlesByTimeframe timeframe candleOrder = .ok candles →
      (ICTStrategy.Run ⟨ks⟩ data timeframe candleOrder sched).1
        = .ok (runCandles candles sched ks).1) ∧
    (runCandles candles sched ks).1
      = (List.range candles.length).flatMap (tradesAt candles sched ks) ∧
    (∀ i candle, candles[i]? = some candle →
      tradesAt candles sched ks i
        = List.replicate
            ((cacheBefore candles sched ks i).CheckPriceBreach (sched i) candle.Low).1.length
            { Timestamp := candle.Timestamp, Type_ := "Sell", Price := candle.Low,
              Volume := 0 }) ∧
    (∀ t ∈ (runCandles candles sched ks).1,
      t.Type_ = "Sell" ∧ ∃ candle ∈ candles, t.Timestamp = candle.Timestamp ∧
        t.Price = candle.Low) := by
  have hcat : (runCandles candles sched ks).1
      = (List.range candles.length).flatMap (tradesAt candles sched ks) :=
    foldl_runBody_fst candles sched ks candles.length
  have hat : ∀ i candle, candles[i]? = some candle →
      tradesAt candles sched ks i
        = List.replicate
            ((cacheBefore candles sched ks i).CheckPriceBreach (sched i) candle.Low).1.length
            { Timestamp := candle.Timestamp, Type_ := "Sell", Price := candle.Low,
              Volume := 0 } := by
    intro i candle hi
    unfold tradesAt
    rw [hi]
    simp only [List.map_const']
    rfl
  refine ⟨?_, hcat, hat, ?_⟩
  · intro data timeframe candleOrder hfetch
    unfold ICTStrategy.Run
    rw [hfetch]
  intro t ht
  rw [hcat, List.mem_flatMap] at ht
  obtain ⟨i, _, hti⟩ := ht
  cases hi : candles[i]? with
  | none =>
    unfold tradesAt at hti
    rw [hi] at hti
    simp at hti
  | some candle =>
    rw [hat i candle hi] at hti
    have ht2 := (List.mem_replicate.mp hti).2
    subst ht2
    obtain ⟨hlt, hget⟩ := List.getElem?_eq_some.mp hi
    exact ⟨rfl, candle, hget ▸ List.getElem_mem hlt, rfl, rfl⟩

/-! ## C15 -/

theorem isBullishOrderBlock_eq_false (c : Candle) (h : c.Low ≤ c.High) :
    c.IsBullishOrderBlock = false := by
  unfold Candle.IsBullishOrderBlock Candle.IsBearish Candle.BodySize Candle.Range
  by_cases hb : c.Close < c.Open
  · have hr : ¬ (c.Close - c.Open > (c.High - c.Low) * 0.5) := by
      have h1 : c.Close - c.Open < 0 := by linarith
      have h2 : (0 : ℚ) ≤ (c.High - c.Low) * 0.5 := by
        have : (0 : ℚ) ≤ c.High - c.Low := by linarith
        norm_num
        linarith
      linarith
    simp [hb, hr]
  · simp [hb]

/-- C15, evaluated on the code: the bearish candle open 100, close 85, low 80, high 105
(decline 15, more than half of the range 25) is not classified as a bullish order block:
`BodySize` is the signed `Close - Open = -15`, and `-15 > 12.5` is false.  The candle with a
decline of exactly half its range is rejected as well. -/
theorem C15_strong_down_candle_rejected :
    strongDownCandle.IsBearish = true ∧
    strongDownCandle.Open - strongDownCandle.Close = 15 ∧
    strongDownCandle.Range = 25 ∧
    strongDownCandle.BodySize = -15 ∧
    strongDownCandle.IsBullishOrderBlock = false ∧
    halfDownCandle.IsBullishOrderBlock = false := by
  refine ⟨by decide, ?_, ?_, ?_, ?_, ?_⟩
  · norm_num [strongDownCandle]
  · norm_num [strongDownCandle, Candle.Range]
  · norm_num [strongDownCandle, Candle.BodySize]
  · exact isBullishOrderBlock_eq_false _ (by decide)
  · exact isBullishOrderBlock_eq_false _ (by decide)

/-! ## C16 -/

/-- C16, the claim on the code at a concrete input: the candle value with high = low = 100,
open 99 and close 101 has range 0 and `IsBearishOrderBlock` returns true for it. -/
theorem C16_flat_range_counterexample :
    flatRangeCandle.High = flatRangeCandle.Low ∧
    flatRangeCandle.Range = 0 ∧
    flatRangeCandle.IsBearishOrderBlock = true := by
  refine ⟨by decide, ?_, ?_⟩
  · norm_num [flatRangeCandle, Candle.Range]
  · norm_num [flatRangeCandle, Candle.IsBearishOrderBlock, Candle.IsBullish, Candle.BodySize,
      Candle.Range]

/-- C16, amended. Degenerate range: for every candle value with high = low,
`IsBullishOrderBlock` returns false, and `IsBearishOrderBlock` returns true exactly when
close > open; so both return false when close ≤ open, in particular for a candle with
open = close. -/
theorem C16_flat_range_order_blocks (c : Candle) (h : c.High = c.Low) :
    c.IsBullishOrderBlock = false ∧
    (c.IsBearishOrderBlock = true ↔ c.Close > c.Open) ∧
    (c.Close ≤ c.Open → c.IsBearishOrderBlock = false) := by
  have hiff : c.IsBearishOrderBlock = true ↔ c.Close > c.Open := by
    unfold Candle.IsBearishOrderBlock Candle.IsBullish Candle.BodySize Candle.Range
    rw [h]
    simp
  refine ⟨isBullishOrderBlock_eq_false c (le_of_eq h.symm), hiff, ?_⟩
  intro hle
  cases hb : c.IsBearishOrderBlock with
  | false => rfl
  | true => exact absurd (hiff.mp hb) (not_lt.mpr hle)

/-- C16 at concrete inputs: the flat candle with open 99 and close 101, and the flat candle
with open = close = 100. -/
theorem C16_flat_range_order_blocks_witness :
    flatRangeCandle.High = flatRangeCandle.Low ∧
    flatRangeCandle.IsBullishOrderBlock = false ∧
    flatRangeCandle.IsBearishOrderBlock = true ∧
    Candle.IsBearishOrderBlock
      { Timestamp := 1, Open := 100, High := 100, Low := 100, Close := 100, Volume := 0 }
      = false :=
  ⟨by decide,
    (C16_flat_range_order_blocks flatRangeCandle (by decide)).1,
    (C16_flat_range_order_blocks flatRangeCandle (by decide)).2.1.mpr (by decide),
    (C16_flat_range_order_blocks
      { Timestamp := 1, Open := 100, High := 100, Low := 100, Close := 100, Volume := 0 }
      (by decide)).2.2 (by decide)⟩

/-! ## C17 -/

/-- C17. Fair-value-gap bounds: `FVGRange(a, b)` returns flag true if and only if
`HasFairValueGap(a, b)`, i.e. `a.Low > b.High` or `b.Low > a.High`; without a gap it returns
`(0, 0, false)`; with `a.Low > b.High` it returns `(b.High, a.Low, true)`, and with
`b.Low > a.High` and both candles having low ≤ high it returns `(a.High, b.Low, true)`; in
every case with a gap the returned bounds satisfy lo < hi. -/
theorem C17_fvg_range_bounds (a b : Candle) :
    ((a.FVGRange b).2.2 = true ↔ a.HasFairValueGap b = true) ∧
    (a.HasFairValueGap b = true ↔ (a.Low > b.High ∨ b.Low > a.High)) ∧
    ((a.FVGRange b).2.2 = false → a.FVGRange b = (0, 0, false)) ∧
    (a.Low > b.High → a.FVGRange b = (b.High, a.Low, true)) ∧
    (b.Low > a.High → a.Low ≤ a.High → b.Low ≤ b.High →
      a.FVGRange b = (a.High, b.Low, true)) ∧
    ((a.FVGRange b).2.2 = true → (a.FVGRange b).1 < (a.FVGRange b).2.1) := by
  have hgap : a.HasFairValueGap b = true ↔ (a.Low > b.High ∨ b.Low > a.High) := by
    unfold Candle.HasFairValueGap
    simp
  by_cases h1 : a.Low > b.High
  · have hg : a.HasFairValueGap b = true := hgap.mpr (Or.inl h1)
    have hr : a.FVGRange b = (b.High, a.Low, true) := by
      unfold Candle.FVGRange
      simp [hg, h1]
    refine ⟨?_, hgap, ?_, ?_, ?_, ?_⟩
    · simp [hr, hg]
    · intro hf
      simp [hr] at hf
    · intro _
      exact hr
    · intro h2 ha hb
      exfalso
      linarith
    · intro _
      rw [hr]
      exact h1
  · by_cases h2 : b.Low > a.High
    · have hg : a.HasFairValueGap b = true := hgap.mpr (Or.inr h2)
      have hr : a.FVGRange b = (a.High, b.Low, true) := by
        unfold Candle.FVGRange
        simp only [hg, if_true, h1, if_false]
      refine ⟨?_, hgap, ?_, ?_, ?_, ?_⟩
      · simp [hr, hg]
      · intro hf
        simp [hr] at hf
      · intro h
        exact absurd h h1
      · intro _ _ _
        exact hr
      · intro _
        rw [hr]
        exact h2
    · have hg : a.HasFairValueGap b = false := by
        cases hv : a.HasFairValueGap b with
        | false => rfl
        | true => rcases hgap.mp hv with h | h
                  · exact absurd h h1
                  · exact absurd h h2
      have hr : a.FVGRange b = (0, 0, false) := by
        unfold Candle.FVGRange
        simp [hg]
      refine ⟨?_, hgap, ?_, ?_, ?_, ?_⟩
      · simp [hr, hg]
      · intro _
        exact hr
      · intro h
        exact absurd h h1
      · intro h
        exact absurd h h2
      · intro hf
        simp [hr] at hf

/-- C17 at the concrete inputs of the claim: A = (low 100, high 110) with B = (low 115,
high 120) gives `(110, 115, true)`; A with B = (low 105, high 120) gives flag false. -/
theorem C17_fvg_range_bounds_witness :
    gapCandleA.HasFairValueGap gapCandleB = true ∧
    gapCandleA.FVGRange gapCandleB = (110, 115, true) ∧
    gapCandleA.HasFairValueGap overlapCandleB = false ∧
    gapCandleA.FVGRange overlapCandleB = (0, 0, false) :=
  ⟨by decide,
    (C17_fvg_range_bounds gapCandleA gapCandleB).2.2.2.2.1 (by decide) (by decide) (by decide),
    by decide,
    (C17_fvg_range_bounds gapCandleA overlapCandleB).2.2.1 (by decide)⟩

/-! ## C14 -/

theorem runCandles_nil (sched : Nat → List String) (ks : KeyStore) :
    runCandles [] sched ks = ([], ks) := rfl

theorem GetCandlesByTimeframe_of_empty (dh : DataHandler) (timeframe : Timeframe)
    (order : List Time) (m : GoMap Time Candle)
    (hm : dh.CandlesByTimeframe.get timeframe = some m) (hempty : m.entries = []) :
    dh.GetCandlesByTimeframe timeframe order = .ok [] := by
  unfold DataHandler.GetCandlesByTimeframe
  rw [hm]
  have hnone : ∀ ts, m.get ts = none := by
    intro ts
    unfold GoMap.get
    rw [hempty]
    rfl
  have hfold : ∀ (l : List Time) (acc : List Candle),
      l.foldl (fun result ts =>
        match m.get ts with
        | some candle => result ++ [candle]
        | none => result) acc = acc := by
    intro l
    induction l with
    | nil => intro acc; rfl
    | cons ts rest ih =>
      intro acc
      rw [List.foldl_cons, hnone ts]
      exact ih acc
  simp only [hfold]

/-- C14, the claim on the code at a concrete input: a handler to which "1d" was added
through `AddCandles` with an empty candle list holds zero candles for "1d", and `Run`
returns no error: it returns an empty trade list and leaves the strategy as it was. -/
theorem C14_empty_timeframe_counterexample :
    (NewDataHandler.AddCandles "1d" []).CandlesByTimeframe.get "1d" = some GoMap.empty ∧
    (NewDataHandler.AddCandles "1d" []).GetCandlesByTimeframe "1d" [] = .ok [] ∧
    ICTStrategy.Run ⟨supportStore⟩ (NewDataHandler.AddCandles "1d" []) "1d" []
        (fun _ => ["support"])
      = (.ok [], ⟨supportStore⟩) :=
  ⟨rfl, rfl, rfl⟩

/-- C14, amended. No-data failure: for every data handler and timeframe that was never
added to the handler, `Run` returns the error of `GetCandlesByTimeframe`, returns no trades
and leaves the strategy unchanged.  For a timeframe that is present with zero candles, such
as one added through `AddCandles` with an empty candle list, `Run` returns no error and an
empty trade list. -/
theorem C14_no_data_failure (s : ICTStrategy) (data : DataHandler) (timeframe : Timeframe)
    (candleOrder : List Time) (sched : Nat → List String) :
    (data.CandlesByTimeframe.get timeframe = none →
      s.Run data timeframe candleOrder sched
        = (.error ("no candles found for timeframe " ++ timeframe), s)) ∧
    (∀ m, data.CandlesByTimeframe.get timeframe = some m → m.entries = [] →
      s.Run data timeframe candleOrder sched = (.ok [], s)) ∧
    (data.CandlesByTimeframe.get timeframe = none →
      s.Run (data.AddCandles timeframe []) timeframe candleOrder sched = (.ok [], s)) := by
  have hpresent : ∀ (d : DataHandler) (m : GoMap Time Candle),
      d.CandlesByTimeframe.get timeframe = some m → m.entries = [] →
      s.Run d timeframe candleOrder sched = (.ok [], s) := by
    intro d m hm hempty
    unfold ICTStrategy.Run
    rw [GetCandlesByTimeframe_of_empty d timeframe candleOrder m hm hempty]
    rfl
  refine ⟨?_, hpresent data, ?_⟩
  · intro habsent
    unfold ICTStrategy.Run DataHandler.GetCandlesByTimeframe
    rw [habsent]
  · intro habsent
    apply hpresent (data.AddCandles timeframe []) GoMap.empty
    · unfold DataHandler.AddCandles
      rw [habsent]
      exact GoMap.get_set_self _ _ _
    · rfl

/-- C14 at concrete inputs: the fresh data handler, which has no timeframe "1d". -/
theorem C14_no_data_failure_witness :
    NewDataHandler.CandlesByTimeframe.get "1d" = none ∧
    ICTStrategy.Run ⟨supportStore⟩ NewDataHandler "1d" [] (fun _ => ["support"])
      = (.error "no candles found for timeframe 1d", ⟨supportStore⟩) :=
  ⟨rfl, (C14_no_data_failure ⟨supportStore⟩ NewDataHandler "1d" []
    (fun _ => ["support"])).1 rfl⟩

/-! ## C18 -/

/-- C18, evaluated on the code: the handler `twoCandleHandler` stores two candles of "1d",
at instants 7 and 8; when `range candles` visits the map in the order 8, 7, which Go
allows, `GetCandlesByTimeframe` returns the candle of instant 8 before the candle of
instant 7, and `Run` then takes the later candle as the predecessor of the earlier one. -/
theorem C18_candles_in_map_order :
    (twoCandleHandler.CandlesByTimeframe.get "1d").map GoMap.keys = some [7, 8] ∧
    [8, 7].Perm [7, 8] ∧
    twoCandleHandler.GetCandlesByTimeframe "1d" [8, 7] = .ok [dropCandle, dipCandle] ∧
    dropCandle.Timestamp = 8 ∧ dipCandle.Timestamp = 7 ∧
    ¬ (dropCandle.Timestamp < dipCandle.Timestamp) :=
  ⟨by decide, by decide, rfl, rfl, rfl, by decide⟩

/-! ## C20 -/

theorem findPrevious_isSome_iff (ts : Time) :
    ∀ (x : Time) (rest : List Time), (∃ a, findPrevious ts (x :: rest) = some a) ↔ ts ∈ rest
  | x, [] => by simp [findPrevious]
  | x, y :: rest => by
    by_cases hyt : y = ts
    · rw [findPrevious, if_pos hyt]
      simp [hyt]
    · rw [findPrevious, if_neg hyt, findPrevious_isSome_iff ts y rest]
      have hne : ¬ ts = y := fun h => hyt h.symm
      simp [hne]

theorem findPrevious_some_spec (ts : Time) :
    ∀ (l : List Time), l.Sorted (fun a b => a.instant ≤ b.instant) → l.Nodup →
      ∀ a, findPrevious ts l = some a →
        a ∈ l ∧ ts ∈ l ∧ a ≠ ts ∧ a.instant ≤ ts.instant ∧
          ∀ x ∈ l, x.instant < ts.instant → x.instant ≤ a.instant
  | [], _, _, a, h => by simp [findPrevious] at h
  | [_], _, _, a, h => by simp [findPrevious] at h
  | x :: y :: rest, hs, hnd, a, h => by
    have hs2 : (y :: rest).Sorted (fun a b => a.instant ≤ b.instant) := List.Sorted.of_cons hs
    have hnd2 : (y :: rest).Nodup := (List.nodup_cons.mp hnd).2
    have hx : ∀ z ∈ y :: rest, x.instant ≤ z.instant := fun z hz => List.rel_of_sorted_cons hs z hz
    have hy : ∀ z ∈ rest, y.instant ≤ z.instant := fun z hz => List.rel_of_sorted_cons hs2 z hz
    by_cases hyt : y = ts
    · rw [findPrevious, if_pos hyt] at h
      have hax : x = a := Option.some.inj h
      subst hax
      subst hyt
      refine ⟨List.mem_cons_self _ _, List.mem_cons_of_mem _ (List.mem_cons_self _ _), ?_,
        hx y (List.mem_cons_self _ _), ?_⟩
      · intro hc
        exact (List.nodup_cons.mp hnd).1 (hc ▸ List.mem_cons_self _ _)
      · intro z hz hlt
        rcases List.mem_cons.mp hz with h1 | h1
        · rw [h1]
        · rcases List.mem_cons.mp h1 with h2 | h2
          · rw [h2] at hlt
            exact absurd hlt (lt_irrefl _)
          · exact absurd hlt (not_lt.mpr (hy z h2))
    · rw [findPrevious, if_neg hyt] at h
      obtain ⟨ha, hts, hne, hle, hmax⟩ := findPrevious_some_spec ts (y :: rest) hs2 hnd2 a h
      refine ⟨List.mem_cons_of_mem _ ha, List.mem_cons_of_mem _ hts, hne, hle, ?_⟩
      intro z hz hlt
      rcases List.mem_cons.mp hz with h1 | h1
      · rw [h1]
        exact hx a ha
      · exact hmax z h1 hlt

theorem sortTimestamps_spec (m : GoMap Time Candle) (order : List Time)
    (horder : order.Perm m.keys) :
    (sortTimestamps (order.filter (fun ts => (m.get ts).isSome))).Sorted
        (fun a b => a.instant ≤ b.instant) ∧
    (sortTimestamps (order.filter (fun ts => (m.get ts).isSome))).Nodup ∧
    ∀ t, t ∈ sortTimestamps (order.filter (fun ts => (m.get ts).isSome)) ↔ t ∈ m.keys := by
  have hfilter : order.filter (fun ts => (m.get ts).isSome) = order := by
    apply List.filter_eq_self.mpr
    intro t ht
    obtain ⟨v, hv⟩ := (GoMap.mem_keys_iff m t).mp ((List.Perm.mem_iff horder).mp ht)
    simp [hv]
  rw [hfilter]
  unfold sortTimestamps
  haveI : IsTotal Time (fun a b => a.instant ≤ b.instant) := ⟨fun a b => le_total _ _⟩
  haveI : IsTrans Time (fun a b => a.instant ≤ b.instant) := ⟨fun _ _ _ h1 h2 => le_trans h1 h2⟩
  have hperm : (order.insertionSort (fun a b => a.instant ≤ b.instant)).Perm m.keys :=
    (List.perm_insertionSort _ order).trans horder
  exact ⟨List.sorted_insertionSort (fun a b : Time => a.instant ≤ b.instant) order,
    (List.Perm.nodup_iff hperm).mpr m.nodupKeys, fun t => List.Perm.mem_iff hperm⟩

theorem PreviousCandle_ok_iff (dh : DataHandler) (tf : Timeframe) (order : List Time)
    (ts : Time) (m : GoMap Time Candle) (hm : dh.CandlesByTimeframe.get tf = some m)
    (horder : order.Perm m.keys) (c : Candle) :
    dh.PreviousCandle tf order ts = .ok c ↔
      ∃ t, findPrevious ts (sortTimestamps (order.filter (fun x => (m.get x).isSome))) = some t
        ∧ m.get t = some c := by
  have hspec := sortTimestamps_spec m order horder
  unfold DataHandler.PreviousCandle
  rw [hm]
  simp only
  cases hf : findPrevious ts (sortTimestamps (order.filter (fun x => (m.get x).isSome))) with
  | none => simp
  | some t =>
    have ht : t ∈ m.keys :=
      (hspec.2.2 t).mp (findPrevious_some_spec ts _ hspec.1 hspec.2.1 t hf).1
    obtain ⟨v, hv⟩ := (GoMap.mem_keys_iff m t).mp ht
    simp only [hv]
    constructor
    · intro h
      refine ⟨t, rfl, ?_⟩
      injection h with h1
      rw [← h1]
      exact hv
    · rintro ⟨t2, h1, h2⟩
      have : t2 = t := (Option.some.inj h1).symm
      rw [this, hv] at h2
      rw [Option.some.inj h2]

theorem PreviousCandle_ok_of_earlier (dh : DataHandler) (tf : Timeframe) (order : List Time)
    (ts : Time) (m : GoMap Time Candle) (hm : dh.CandlesByTimeframe.get tf = some m)
    (horder : order.Perm m.keys) (hts : ts ∈ m.keys)
    (hex : ∃ t ∈ m.keys, t.instant < ts.instant) :
    ∃ c, dh.PreviousCandle tf order ts = .ok c := by
  have hspec := sortTimestamps_spec m order horder
  obtain ⟨t, ht, hlt⟩ := hex
  have hfind : ∃ a, findPrevious ts
      (sortTimestamps (order.filter (fun x => (m.get x).isSome))) = some a := by
    generalize sortTimestamps (order.filter (fun x => (m.get x).isSome)) = l at hspec
    have htl : ts ∈ l := (hspec.2.2 ts).mpr hts
    have hl : t ∈ l := (hspec.2.2 t).mpr ht
    cases l with
    | nil => simp at htl
    | cons x rest =>
      apply (findPrevious_isSome_iff ts x rest).mpr
      rcases List.mem_cons.mp htl with h1 | h1
      · exfalso
        have hmin : ∀ z ∈ rest, x.instant ≤ z.instant :=
          fun z hz => List.rel_of_sorted_cons hspec.1 z hz
        rcases List.mem_cons.mp hl with h2 | h2
        · rw [h1, h2] at hlt
          exact absurd hlt (lt_irrefl _)
        · have := hmin t h2
          rw [h1] at hlt
          exact absurd hlt (not_lt.mpr this)
      · exact h1
  obtain ⟨a, ha⟩ := hfind
  have hamem : a ∈ m.keys :=
    (hspec.2.2 a).mp (findPrevious_some_spec ts _ hspec.1 hspec.2.1 a ha).1
  obtain ⟨v, hv⟩ := (GoMap.mem_keys_iff m a).mp hamem
  exact ⟨v, (PreviousCandle_ok_iff dh tf order ts m hm horder v).mpr ⟨a, ha, hv⟩⟩

theorem PreviousCandle_ok_spec (dh : DataHandler) (tf : Timeframe) (order : List Time)
    (ts : Time) (m : GoMap Time Candle) (hm : dh.CandlesByTimeframe.get tf = some m)
    (horder : order.Perm m.keys) (c : Candle) (hc : dh.PreviousCandle tf order ts = .ok c) :
    ts ∈ m.keys ∧ ∃ t ∈ m.keys, t ≠ ts ∧ t.instant ≤ ts.instant ∧
      (∀ u ∈ m.keys, u.instant < ts.instant → u.instant ≤ t.instant) ∧ m.get t = some c := by
  have hspec := sortTimestamps_spec m order horder
  obtain ⟨t, hf, hget⟩ := (PreviousCandle_ok_iff dh tf order ts m hm horder c).mp hc
  obtain ⟨h1, h2, h3, h4, h5⟩ := findPrevious_some_spec ts _ hspec.1 hspec.2.1 t hf
  refine ⟨(hspec.2.2 ts).mp h2, t, (hspec.2.2 t).mp h1, h3, h4, ?_, hget⟩
  intro u hu hlt
  exact h5 u ((hspec.2.2 u).mpr hu) hlt

/-- C20, the claim on the code at a concrete input: the handler `sameInstantHandler` stores
under "1d" two timestamps of the one instant 7, in two Locations, so none is strictly
earlier than the other; when the map is visited in the order given, `PreviousCandle` asked
for the second one succeeds and returns the candle stored under the first. -/
theorem C20_same_instant_counterexample :
    (sameInstantHandler.CandlesByTimeframe.get "1d").map GoMap.keys
      = some [{ instant := 7, loc := 0 }, { instant := 7, loc := 1 }] ∧
    sameInstantHandler.PreviousCandle "1d"
        [{ instant := 7, loc := 0 }, { instant := 7, loc := 1 }] { instant := 7, loc := 1 }
      = .ok dipCandle ∧
    dipCandle.Timestamp = { instant := 7, loc := 0 } ∧
    ¬ (∃ t ∈ [({ instant := 7, loc := 0 } : Time), { instant := 7, loc := 1 }],
        t < ({ instant := 7, loc := 1 } : Time)) := by
  refine ⟨by decide, rfl, rfl, by decide⟩

/-- C20, amended. PreviousCandle returns the chronological predecessor: when the timeframe
is absent it returns an error; when it is present and `ts` is not equal (Go `==`) to a
stored timestamp it returns an error, also when `ts` is the instant of a stored timestamp in
another Location; and when the stored timestamps denote pairwise distinct instants, the call
succeeds if and only if `ts` is a stored timestamp and some stored timestamp is strictly
earlier, the candle returned is the one stored under the greatest stored timestamp strictly
earlier than `ts`, and the call returns an error when no stored timestamp is earlier. -/
theorem C20_previous_candle (dh : DataHandler) (tf : Timeframe) (order : List Time)
    (ts : Time) :
    (dh.CandlesByTimeframe.get tf = none →
      dh.PreviousCandle tf order ts = .error ("no data available for timeframe " ++ tf)) ∧
    (∀ m, dh.CandlesByTimeframe.get tf = some m → order.Perm m.keys →
      (ts ∉ m.keys → ∃ msg, dh.PreviousCandle tf order ts = .error msg) ∧
      (ts ∈ m.keys → (∃ t ∈ m.keys, t < ts) → ∃ c, dh.PreviousCandle tf order ts = .ok c) ∧
      ((∀ a ∈ m.keys, ∀ b ∈ m.keys, a.instant = b.instant → a = b) →
        ((∃ c, dh.PreviousCandle tf order ts = .ok c)
          ↔ (ts ∈ m.keys ∧ ∃ t ∈ m.keys, t < ts)) ∧
        (∀ c, dh.PreviousCandle tf order ts = .ok c →
          ∃ t ∈ m.keys, t < ts ∧ (∀ u ∈ m.keys, u < ts → u.instant ≤ t.instant)
            ∧ m.get t = some c) ∧
        ((∀ t ∈ m.keys, ts.instant ≤ t.instant) →
          ∃ msg, dh.PreviousCandle tf order ts = .error msg))) := by
  constructor
  · intro habsent
    unfold DataHandler.PreviousCandle
    rw [habsent]
  · intro m hm horder
    have herr : ¬ (∃ c, dh.PreviousCandle tf order ts = .ok c) →
        ∃ msg, dh.PreviousCandle tf order ts = .error msg := by
      intro hno
      cases hr : dh.PreviousCandle tf order ts with
      | error msg => exact ⟨msg, rfl⟩
      | ok c => exact absurd ⟨c, hr⟩ hno
    have hearlier : ts ∈ m.keys → (∃ t ∈ m.keys, t < ts) →
        ∃ c, dh.PreviousCandle tf order ts = .ok c :=
      fun hts hex => PreviousCandle_ok_of_earlier dh tf order ts m hm horder hts hex
    refine ⟨?_, hearlier, ?_⟩
    · intro hnot
      apply herr
      rintro ⟨c, hc⟩
      exact hnot (PreviousCandle_ok_spec dh tf order ts m hm horder c hc).1
    · intro hdistinct
      have hstrict : ∀ c, dh.PreviousCandle tf order ts = .ok c →
          ts ∈ m.keys ∧ ∃ t ∈ m.keys, t < ts ∧
            (∀ u ∈ m.keys, u < ts → u.instant ≤ t.instant) ∧ m.get t = some c := by
        intro c hc
        obtain ⟨hts, t, ht, hne, hle, hmax, hget⟩ :=
          PreviousCandle_ok_spec dh tf order ts m hm horder c hc
        have hlt : t.instant < ts.instant :=
          lt_of_le_of_ne hle (fun heq => hne (hdistinct t ht ts hts heq))
        exact ⟨hts, t, ht, hlt, hmax, hget⟩
      refine ⟨?_, ?_, ?_⟩
      · constructor
        · rintro ⟨c, hc⟩
          obtain ⟨hts, t, ht, hlt, _⟩ := hstrict c hc
          exact ⟨hts, t, ht, hlt⟩
        · rintro ⟨hts, hex⟩
          exact hearlier hts hex
      · intro c hc
        exact (hstrict c hc).2
      · intro hmin
        apply herr
        rintro ⟨c, hc⟩
        obtain ⟨_, t, ht, hlt, _⟩ := hstrict c hc
        exact absurd hlt (not_lt.mpr (hmin t ht))

/-- C20 at concrete inputs: the handler with candles at instants 7 and 8 under "1d", the
map visited in the order 8, 7; the predecessor of instant 8 is the candle of instant 7;
instant 7, the earliest, has none; instant 8 asked for in another Location is not a stored
timestamp and gives an error; and so does the absent timeframe "4h". -/
theorem C20_previous_candle_witness :
    (twoCandleHandler.CandlesByTimeframe.get "1d").map GoMap.keys = some [7, 8] ∧
    twoCandleHandler.PreviousCandle "1d" [8, 7] 8 = .ok dipCandle ∧
    (∃ msg, twoCandleHandler.PreviousCandle "1d" [8, 7] 7 = .error msg) ∧
    (∃ msg, twoCandleHandler.PreviousCandle "1d" [8, 7] { instant := 8, loc := 1 }
      = .error msg) ∧
    twoCandleHandler.PreviousCandle "4h" [8, 7] 8
      = .error "no data available for timeframe 4h" :=
  ⟨by decide, rfl, ⟨_, rfl⟩, ⟨_, rfl⟩,
    (C20_previous_candle twoCandleHandler "4h" [8, 7] 8).1 rfl⟩

/-! ## Swing insertions of the strategy loop -/

theorem runBody_snd (candles : List Candle) (sched : Nat → List String)
    (st : List Trade × KeyStore) (i : Nat) (candle : Candle) (hi : candles[i]? = some candle) :
    (runBody candles sched st i).2
      = (swingCalls candles i).foldl (fun s call => s.AddSwingLow "" call.1 call.2)
          (st.2.CheckPriceBreach (sched i) candle.Low).2 := by
  unfold runBody swingCalls
  rw [hi]
  simp only
  generalize (if i > 0 then candles[i - 1]? else none) = prevCandle
  generalize (if i < candles.length - 1 then candles[i + 1]? else none) = nextCandle
  cases prevCandle with
  | none => rfl
  | some p =>
    cases nextCandle with
    | none => rfl
    | some n =>
      by_cases hl : candle.IsSwingLow p n = true
      · by_cases hh : candle.IsSwingHigh p n = true
        · simp [hl, hh]
        · simp [hl, hh]
      · by_cases hh : candle.IsSwingHigh p n = true
        · simp [hl, hh]
        · simp [hl, hh]

theorem runBody_of_none (candles : List Candle) (sched : Nat → List String)
    (st : List Trade × KeyStore) (i : Nat) (hi : candles[i]? = none) :
    runBody candles sched st i = st := by
  unfold runBody
  rw [hi]

theorem AddSwingLow_get_empty (ks : KeyStore) (label : String) (c : Candle) :
    (ks.AddSwingLow "" label c).levels.get "" = some (swingLowEntry label c) := by
  unfold KeyStore.AddSwingLow swingLowEntry
  exact GoMap.get_set_self _ _ _

theorem AddSwingLow_get_ne (ks : KeyStore) (label : String) (c : Candle) (name : String)
    (hne : name ≠ "") : (ks.AddSwingLow "" label c).levels.get name = ks.levels.get name := by
  unfold KeyStore.AddSwingLow
  exact GoMap.get_set_ne _ _ _ hne

theorem foldl_AddSwingLow_get_ne (calls : List (String × Candle)) (ks : KeyStore)
    (name : String) (hne : name ≠ "") :
    (calls.foldl (fun s call => s.AddSwingLow "" call.1 call.2) ks).levels.get name
      = ks.levels.get name := by
  induction calls generalizing ks with
  | nil => rfl
  | cons call rest ih =>
    rw [List.foldl_cons, ih, AddSwingLow_get_ne _ _ _ _ hne]

theorem foldl_AddSwingLow_get_empty (calls : List (String × Candle)) (ks : KeyStore) :
    (calls.foldl (fun s call => s.AddSwingLow "" call.1 call.2) ks).levels.get ""
      = match calls.getLast? with
        | some call => some (swingLowEntry call.1 call.2)
        | none => ks.levels.get "" := by
  induction calls generalizing ks with
  | nil => rfl
  | cons call rest ih =>
    rw [List.foldl_cons, ih]
    cases rest with
    | nil => simp [AddSwingLow_get_empty]
    | cons call2 rest2 =>
      rw [List.getLast?_cons_cons]
      cases hgl : (call2 :: rest2).getLast? with
      | none => simp at hgl
      | some x => rfl

theorem foldl_range_succ (candles : List Candle) (sched : Nat → List String) (ks : KeyStore)
    (j : Nat) :
    (List.range (j + 1)).foldl (runBody candles sched) ([], ks)
      = runBody candles sched ((List.range j).foldl (runBody candles sched) ([], ks)) j := by
  rw [List.range_succ, List.foldl_append]
  rfl

/-- C12, evaluated on the code: in `peakCandles` the lows 10, 12, 14 rise, so no index
satisfies the swing-low condition; yet the cache, empty when candle 1 is reached, holds
under "" an entry of type swingLow once candle 1 has been processed: the swing-high
detection at index 1 calls `AddSwingLow`. -/
theorem C12_swing_high_detection_inserts_swingLow :
    peakCandles.map Candle.Low = [10, 12, 14] ∧
    ValidSchedule peakCandles (fun i => if i = 2 then [""] else []) NewKeyStore ∧
    (cacheBefore peakCandles (fun i => if i = 2 then [""] else []) NewKeyStore 1).levels.keys
      = [] ∧
    swingCalls peakCandles 1
      = [("swingHigh", { Timestamp := 2, Open := 18, High := 30, Low := 12, Close := 22,
                         Volume := 1 })] ∧
    ((cacheBefore peakCandles (fun i => if i = 2 then [""] else []) NewKeyStore 2).levels.get
        "").map KeyLevel.Type_ = some "swingLow" := by
  refine ⟨by decide, ?_, by decide, by decide, by decide⟩
  unfold ValidSchedule KeyStore.IterationOrder
  decide

/-! ## C13 -/

/-- C13, evaluated on the code: the middle candle of `peakCandles` (high 30, low 12) is a
swing high; the entry `Run` inserts for it, found under "" in the final cache, has type
swingLow, no `SwingHigh` payload, and a `SwingLow` payload labelled "swingHigh" whose price
is the candle's low 12, not its high 30. -/
theorem C13_swing_high_stored_as_swingLow :
    Candle.IsSwingHigh
      { Timestamp := 2, Open := 18, High := 30, Low := 12, Close := 22, Volume := 1 }
      { Timestamp := 1, Open := 15, High := 20, Low := 10, Close := 18, Volume := 1 }
      { Timestamp := 3, Open := 22, High := 25, Low := 14, Close := 16, Volume := 1 } = true ∧
    allSwingCalls peakCandles
      = [("swingHigh", { Timestamp := 2, Open := 18, High := 30, Low := 12, Close := 22,
                         Volume := 1 })] ∧
    (runCandles peakCandles (fun i => if i = 2 then [""] else []) NewKeyStore).2.levels.get ""
      = some { Name := "", Level := 0, Range := none, Candlestick := none, FVG := none,
               MSB := none, OrderBlock := none,
               SwingLow := some { Type_ := "swingHigh", Low := 12 }, SwingHigh := none,
               Type_ := "swingLow", Active := true, Timestamp := 2 } ∧
    SwingLowType ≠ SwingHighType := by
  refine ⟨by decide, by decide, by decide, by decide⟩

/-! ## C19 -/

theorem filterMap_eq_of_single {α β : Type} (f : α → Option β) (a : α) :
    ∀ (l : List α), l.Nodup → a ∈ l → (∀ x ∈ l, x ≠ a → f x = none) →
      l.filterMap f = (f a).toList
  | [], _, hmem, _ => by simp at hmem
  | x :: rest, hnd, hmem, hnone => by
    rw [List.nodup_cons] at hnd
    have hrest : ∀ y ∈ rest, y ≠ a → f y = none :=
      fun y hy hne => hnone y (List.mem_cons_of_mem _ hy) hne
    by_cases hx : x = a
    · subst hx
      have hall : rest.filterMap f = [] := by
        apply List.filterMap_eq_nil_iff.mpr
        intro y hy
        exact hrest y hy (fun hc => hnd.1 (hc ▸ hy))
      cases hf : f x with
      | none => simp [List.filterMap_cons, hf, hall]
      | some b => simp [List.filterMap_cons, hf, hall]
    · have hmem2 : a ∈ rest := by
        rcases List.mem_cons.mp hmem with h | h
        · exact absurd h.symm hx
        · exact h
      rw [List.filterMap_cons, hnone x (List.mem_cons_self _ _) hx]
      exact filterMap_eq_of_single f a rest hnd.2 hmem2 hrest

/-- The invariant of the loop on a cache whose only breach target is the entry under `n`:
that entry is `kn`, and every other entry has type swingLow. -/
theorem breach_of_single_target (ks : KeyStore) (n : String) (kn : KeyLevel)
    (order : List String) (p : ℚ) (horder : ks.IterationOrder order)
    (hget : ks.levels.get n = some kn)
    (hothers : ∀ m e, ks.levels.get m = some e → m ≠ n → e.Type_ = SwingLowType) :
    (ks.CheckPriceBreach order p).1 = if breaches p kn then [kn] else [] := by
  rw [CheckPriceBreach_fst ks order p horder]
  have hmem : n ∈ order :=
    (List.Perm.mem_iff horder).mpr ((GoMap.mem_keys_iff ks.levels n).mpr ⟨kn, hget⟩)
  rw [filterMap_eq_of_single (reported p ks) n order (IterationOrder.nodup horder) hmem]
  · unfold reported
    rw [hget]
    by_cases hb : breaches p kn = true
    · simp [hb]
    · simp [hb]
  · intro m _ hne
    unfold reported
    cases hm : ks.levels.get m with
    | none => rfl
    | some e =>
      have ht := hothers m e hm hne
      have hb : breaches p e = false := by
        unfold breaches
        rw [ht]
        have h1 : ¬ SwingLowType = LevelType := by decide
        have h2 : ¬ (SwingLowType = RangeType ∨ SwingLowType = FVGType) := by decide
        have h3 : ¬ SwingLowType = MSBType := by decide
        simp [h1, h2, h3]
      simp [hb]

theorem others_swingLow_runBody (candles : List Candle) (sched : Nat → List String)
    (st : List Trade × KeyStore) (i : Nat) (n : String)
    (hothers : ∀ m e, st.2.levels.get m = some e → m ≠ n → e.Type_ = SwingLowType) :
    ∀ m e, (runBody candles sched st i).2.levels.get m = some e → m ≠ n →
      e.Type_ = SwingLowType := by
  intro m e hget hne
  cases hi : candles[i]? with
  | none =>
    rw [runBody_of_none candles sched st i hi] at hget
    exact hothers m e hget hne
  | some candle =>
    rw [runBody_snd candles sched st i candle hi] at hget
    have hcpb : ∀ e2, (st.2.CheckPriceBreach (sched i) candle.Low).2.levels.get m = some e2 →
        e2.Type_ = SwingLowType := by
      intro e2 h2
      rw [get_of_entries_sweep candle.Low (sched i) st.2 _
        (CheckPriceBreach_entries st.2 (sched i) candle.Low) m] at h2
      cases hm : st.2.levels.get m with
      | none => simp [hm] at h2
      | some e0 =>
        have ht := hothers m e0 hm hne
        have hde : deactivate candle.Low e0 = e0 := by
          unfold deactivate
          have h1 : ¬ e0.Type_ = LevelType := by
            rw [ht]
            decide
          simp [h1]
        rw [hm] at h2
        simp only [Option.map_some', hde, ite_self, Option.some.injEq] at h2
        rw [← h2]
        exact ht
    by_cases hme : m = ""
    · subst hme
      rw [foldl_AddSwingLow_get_empty] at hget
      cases hsc : (swingCalls candles i).getLast? with
      | none =>
        rw [hsc] at hget
        exact hcpb e hget
      | some call =>
        rw [hsc] at hget
        simp only [Option.some.injEq] at hget
        rw [← hget]
        rfl
    · rw [foldl_AddSwingLow_get_ne _ _ m hme] at hget
      exact hcpb e hget

theorem level_run_invariant (ks : KeyStore) (n : String) (k : KeyLevel)
    (candles : List Candle) (sched : Nat → List String)
    (honly : ks.levels.entries = [(n, k)]) (hn : n ≠ "")
    (hact : k.Active = true) (htype : k.Type_ = LevelType)
    (hvalid : ValidSchedule candles sched ks) :
    ∀ j, j ≤ candles.length →
      ((List.range j).foldl (runBody candles sched) ([], ks)).1
        = (match (candles.take j).find? (fun c => decide (c.Low ≤ k.Level)) with
           | some c => [sellTrade c]
           | none => []) ∧
      ((List.range j).foldl (runBody candles sched) ([], ks)).2.levels.get n
        = some (if ((candles.take j).find? (fun c => decide (c.Low ≤ k.Level))).isSome
                then { k with Active := false } else k) ∧
      (∀ m e, ((List.range j).foldl (runBody candles sched) ([], ks)).2.levels.get m = some e →
        m ≠ n → e.Type_ = SwingLowType) := by
  intro j
  induction j with
  | zero =>
    intro _
    refine ⟨rfl, ?_, ?_⟩
    · simp [GoMap.get, honly, lookupKey]
    · intro m e hget hne
      have hne2 : ¬ n = m := fun h => hne h.symm
      simp [GoMap.get, honly, lookupKey, hne2] at hget
  | succ j ih =>
    intro hj
    have hlt : j < candles.length := hj
    obtain ⟨ih1, ih2, ih3⟩ := ih (Nat.le_of_lt hlt)
    have hi : candles[j]? = some candles[j] := List.getElem?_eq_getElem hlt
    have horder := hvalid j hlt
    unfold cacheBefore at horder
    rw [foldl_range_succ]
    generalize hst : (List.range j).foldl (runBody candles sched) ([], ks) = st
      at ih1 ih2 ih3 horder
    have htake : candles.take (j + 1) = candles.take j ++ [candles[j]] := by
      rw [List.take_succ, hi]
      rfl
    have hfind : (candles.take (j + 1)).find? (fun c => decide (c.Low ≤ k.Level))
        = ((candles.take j).find? (fun c => decide (c.Low ≤ k.Level))).or
            (if candles[j].Low ≤ k.Level then some candles[j] else none) := by
      rw [htake, List.find?_append]
      congr 1
      by_cases hp : candles[j].Low ≤ k.Level
      · simp [List.find?_cons, hp]
      · simp [List.find?_cons, hp]
    have hgetn : (runBody candles sched st j).2.levels.get n
        = (st.2.levels.get n).map (deactivate candles[j].Low) := by
      rw [runBody_snd candles sched st j _ hi, foldl_AddSwingLow_get_ne _ _ n hn,
        CheckPriceBreach_get st.2 (sched j) _ horder n]
    have htrades : (runBody candles sched st j).1
        = st.1 ++ (st.2.CheckPriceBreach (sched j) candles[j].Low).1.map
            (fun _ => sellTrade candles[j]) := by
      rw [runBody_fst, hi]
    refine ⟨?_, ?_, others_swingLow_runBody candles sched st j n ih3⟩
    · rw [htrades, hfind, ih1]
      cases hf : (candles.take j).find? (fun c => decide (c.Low ≤ k.Level)) with
      | some c0 =>
        rw [hf] at ih2
        simp only [Option.isSome_some, if_true] at ih2
        rw [breach_of_single_target st.2 n _ (sched j) _ horder ih2 ih3]
        simp [breaches]
      | none =>
        rw [hf] at ih2
        simp only [Option.isSome_none, Bool.false_eq_true, if_false] at ih2
        rw [breach_of_single_target st.2 n _ (sched j) _ horder ih2 ih3]
        by_cases hp : candles[j].Low ≤ k.Level
        · simp [breaches, hact, htype, hp]
        · simp [breaches, hact, htype, hp]
    · rw [hgetn, ih2, hfind]
      cases hf : (candles.take j).find? (fun c => decide (c.Low ≤ k.Level)) with
      | some c0 => simp [deactivate]
      | none =>
        by_cases hp : candles[j].Low ≤ k.Level
        · simp [deactivate, hact, htype, hp]
        · simp [deactivate, hact, htype, hp]

/-! ## C11 -/

/-- C11. Breach-then-trade, end to end: on a cache whose only entry is an active level entry
`k` stored under a non-empty name `n`, the loop of `Run` returns exactly one trade, built
from the first candle whose low is at most `k.Level`, when there is such a candle, and no
trade otherwise; once a candle with low at most `k.Level` has been processed, the entry
under `n` is `k` with `Active = false` at every later candle and at the end of the run. -/
theorem C11_breach_then_trade (ks : KeyStore) (n : String) (k : KeyLevel)
    (candles : List Candle) (sched : Nat → List String)
    (honly : ks.levels.entries = [(n, k)]) (hn : n ≠ "")
    (hact : k.Active = true) (htype : k.Type_ = LevelType)
    (hvalid : ValidSchedule candles sched ks) :
    (runCandles candles sched ks).1
      = (match candles.find? (fun c => decide (c.Low ≤ k.Level)) with
         | some c => [{ Timestamp := c.Timestamp, Type_ := "Sell", Price := c.Low,
                        Volume := 0 }]
         | none => []) ∧
    ((∀ c ∈ candles, ¬ c.Low ≤ k.Level) → (runCandles candles sched ks).1 = []) ∧
    (∀ i c, candles[i]? = some c → c.Low ≤ k.Level →
      ∀ j, i < j → j ≤ candles.length →
        (cacheBefore candles sched ks j).levels.get n = some { k with Active := false }) ∧
    (∀ (data : DataHandler) (timeframe : Timeframe) (candleOrder : List Time),
      data.GetCandlesByTimeframe timeframe candleOrder = .ok candles →
      (ICTStrategy.Run ⟨ks⟩ data timeframe candleOrder sched).1
        = .ok (runCandles candles sched ks).1) := by
  have hinv := level_run_invariant ks n k candles sched honly hn hact htype hvalid
  have hfinal := (hinv candles.length (Nat.le_refl _)).1
  rw [List.take_length] at hfinal
  have htr : (runCandles candles sched ks).1
      = (match candles.find? (fun c => decide (c.Low ≤ k.Level)) with
         | some c => [{ Timestamp := c.Timestamp, Type_ := "Sell", Price := c.Low,
                        Volume := 0 }]
         | none => []) := hfinal
  refine ⟨htr, ?_, ?_, ?_⟩
  · intro hnone
    rw [htr]
    have : candles.find? (fun c => decide (c.Low ≤ k.Level)) = none := by
      apply List.find?_eq_none.mpr
      intro c hc
      simpa using hnone c hc
    rw [this]
  · intro i c hi hc j hij hj
    have h2 := (hinv j hj).2.1
    have hsome : ((candles.take j).find? (fun c => decide (c.Low ≤ k.Level))).isSome = true := by
      apply List.find?_isSome.mpr
      refine ⟨c, ?_, by simpa using hc⟩
      apply List.getElem?_mem
      rw [List.getElem?_take_of_lt hij]
      exact hi
    unfold cacheBefore
    rw [h2, hsome]
    rfl
  · intro data timeframe candleOrder hfetch
    unfold ICTStrategy.Run
    rw [hfetch]

/-- C11 at the concrete input of the claim: a level at 100 and one candle with low 95 give
exactly one trade, with price 95, and the level is stored inactive afterwards. -/
theorem C11_breach_then_trade_witness :
    supportStore.levels.entries = [("support", supportLevel)] ∧
    supportLevel.Level = 100 ∧ dipCandle.Low = 95 ∧
    ValidSchedule [dipCandle] (fun _ => ["support"]) supportStore ∧
    (runCandles [dipCandle] (fun _ => ["support"]) supportStore).1
      = [{ Timestamp := 7, Type_ := "Sell", Price := 95, Volume := 0 }] ∧
    (cacheBefore [dipCandle] (fun _ => ["support"]) supportStore 1).levels.get "support"
      = some { supportLevel with Active := false } :=
  have hvalid : ValidSchedule [dipCandle] (fun _ => ["support"]) supportStore := by
    unfold ValidSchedule KeyStore.IterationOrder
    decide
  have h := C11_breach_then_trade supportStore "support" supportLevel [dipCandle]
    (fun _ => ["support"]) rfl (by decide) rfl rfl hvalid
  ⟨rfl, rfl, rfl, hvalid, h.1, h.2.2.1 0 dipCandle rfl (by decide) 1 (by decide) (by decide)⟩

/-! ## Caches without level entries -/

theorem quietEntry_breaches (p : ℚ) (e : KeyLevel) (h : QuietEntry e) :
    breaches p e = false := by
  obtain ⟨hrange, htype⟩ := h
  have hr : rangeHit p e = false := by
    unfold rangeHit
    rw [hrange]
  unfold breaches
  rcases htype with h | h | h | h
  · have h1 : ¬ FVGType = LevelType := by decide
    simp [h, h1, hr]
  · have h1 : ¬ OrderBlockType = LevelType := by decide
    have h2 : ¬ (OrderBlockType = RangeType ∨ OrderBlockType = FVGType) := by decide
    have h3 : ¬ OrderBlockType = MSBType := by decide
    simp [h, h1, h2, h3]
  · have h1 : ¬ SwingLowType = LevelType := by decide
    have h2 : ¬ (SwingLowType = RangeType ∨ SwingLowType = FVGType) := by decide
    have h3 : ¬ SwingLowType = MSBType := by decide
    simp [h, h1, h2, h3]
  · have h1 : ¬ SwingHighType = LevelType := by decide
    have h2 : ¬ (SwingHighType = RangeType ∨ SwingHighType = FVGType) := by decide
    have h3 : ¬ SwingHighType = MSBType := by decide
    simp [h, h1, h2, h3]

theorem quietEntry_not_level (e : KeyLevel) (h : QuietEntry e) : e.Type_ ≠ LevelType := by
  rcases h.2 with h | h | h | h <;> rw [h] <;> decide

theorem publicEntry_not_level (name : String) (e : KeyLevel) (h : PublicEntry name e) :
    e.Type_ ≠ LevelType := by
  rcases h with ⟨d, b, c, rfl⟩ | h
  · exact msb_ne_level
  · exact quietEntry_not_level e h

theorem breachBody_of_no_level (p : ℚ) (st : List KeyLevel × KeyStore) (name : String)
    (hno : ∀ key, st.2.levels.get name = some key → key.Type_ ≠ LevelType) :
    breachBody p st name = (st.1 ++ (reported p st.2 name).toList, st.2) := by
  apply Prod.ext
  · exact breachBody_fst p st name
  · cases hget : st.2.levels.get name with
    | none =>
      have hid : breachBody p st name = st := by
        unfold breachBody
        rw [hget]
      rw [hid]
    | some key =>
      rw [breachBody_snd p st name key hget]
      have hc : ¬ (key.Active = true ∧ key.Type_ = LevelType ∧ p ≤ key.Level) :=
        fun h => hno key hget h.2.1
      rw [if_neg hc]

theorem foldl_breachBody_of_no_level (p : ℚ) (ks : KeyStore)
    (hno : ∀ name key, ks.levels.get name = some key → key.Type_ ≠ LevelType) :
    ∀ (order : List String) (acc : List KeyLevel),
      order.foldl (breachBody p) (acc, ks) = (acc ++ order.filterMap (reported p ks), ks)
  | [], acc => by simp
  | name :: rest, acc => by
    rw [List.foldl_cons, breachBody_of_no_level p (acc, ks) name (hno name),
      foldl_breachBody_of_no_level p ks hno rest]
    cases hr : reported p ks name with
    | none => simp [List.filterMap_cons, hr]
    | some key => simp [List.filterMap_cons, hr]

theorem CheckPriceBreach_of_no_level (ks : KeyStore) (order : List String) (p : ℚ)
    (hno : ∀ name key, ks.levels.get name = some key → key.Type_ ≠ LevelType) :
    ks.CheckPriceBreach order p = (order.filterMap (reported p ks), ks) := by
  unfold KeyStore.CheckPriceBreach
  rw [foldl_breachBody_of_no_level p ks hno order []]
  rfl

theorem CheckPriceBreach_of_quiet (ks : KeyStore) (order : List String) (p : ℚ)
    (hq : ∀ name key, ks.levels.get name = some key → QuietEntry key) :
    ks.CheckPriceBreach order p = ([], ks) := by
  rw [CheckPriceBreach_of_no_level ks order p
    (fun name key h => quietEntry_not_level key (hq name key h))]
  have hnil : order.filterMap (reported p ks) = [] := by
    apply List.filterMap_eq_nil_iff.mpr
    intro name _
    unfold reported
    cases hget : ks.levels.get name with
    | none => rfl
    | some key => simp [quietEntry_breaches p key (hq name key hget)]
  rw [hnil]

theorem forall_get_set (ks : KeyStore) (name : String) (v : KeyLevel)
    (P : String → KeyLevel → Prop)
    (hks : ∀ n e, ks.levels.get n = some e → P n e) (hv : P name v) :
    ∀ n e, (ks.levels.set name v).get n = some e → P n e := by
  intro n e hget
  by_cases hn : n = name
  · subst hn
    rw [GoMap.get_set_self] at hget
    rw [← Option.some.inj hget]
    exact hv
  · rw [GoMap.get_set_ne ks.levels name v hn] at hget
    exact hks n e hget

theorem reachableWithoutMSB_quiet (ks : KeyStore) (h : ReachableWithoutMSB ks) :
    ∀ name key, ks.levels.get name = some key → QuietEntry key := by
  induction h with
  | newKeyStore =>
    intro name key hget
    simp [NewKeyStore, GoMap.empty, GoMap.get, lookupKey] at hget
  | addFVG ks name low high c _ ih =>
    exact forall_get_set ks name _ (fun _ e => QuietEntry e) ih ⟨rfl, Or.inl rfl⟩
  | addOrderBlock ks name blockType c _ ih =>
    exact forall_get_set ks name _ (fun _ e => QuietEntry e) ih ⟨rfl, Or.inr (Or.inl rfl)⟩
  | addSwingLow ks name blockType c _ ih =>
    exact forall_get_set ks name _ (fun _ e => QuietEntry e) ih
      ⟨rfl, Or.inr (Or.inr (Or.inl rfl))⟩
  | addSwingHigh ks name blockType c _ ih =>
    exact forall_get_set ks name _ (fun _ e => QuietEntry e) ih
      ⟨rfl, Or.inr (Or.inr (Or.inr rfl))⟩

theorem reachable_publicEntry (ks : KeyStore) (h : Reachable ks) :
    ∀ name key, ks.levels.get name = some key → PublicEntry name key := by
  induction h with
  | newKeyStore =>
    intro name key hget
    simp [NewKeyStore, GoMap.empty, GoMap.get, lookupKey] at hget
  | addFVG ks name low high c _ ih =>
    exact forall_get_set ks name _ PublicEntry ih (Or.inr ⟨rfl, Or.inl rfl⟩)
  | addMSB ks name msbType breakPoint c _ ih =>
    exact forall_get_set ks name _ PublicEntry ih (Or.inl ⟨msbType, breakPoint, c, rfl⟩)
  | addOrderBlock ks name blockType c _ ih =>
    exact forall_get_set ks name _ PublicEntry ih (Or.inr ⟨rfl, Or.inr (Or.inl rfl)⟩)
  | addSwingLow ks name blockType c _ ih =>
    exact forall_get_set ks name _ PublicEntry ih
      (Or.inr ⟨rfl, Or.inr (Or.inr (Or.inl rfl))⟩)
  | addSwingHigh ks name blockType c _ ih =>
    exact forall_get_set ks name _ PublicEntry ih
      (Or.inr ⟨rfl, Or.inr (Or.inr (Or.inr rfl))⟩)
  | checkPriceBreach ks order price _ ih =>
    rw [CheckPriceBreach_of_no_level ks order price
      (fun name key h => publicEntry_not_level name key (ih name key h))]
    exact ih

theorem quiet_swingLowEntry (label : String) (c : Candle) :
    QuietEntry (swingLowEntry label c) :=
  ⟨rfl, Or.inr (Or.inr (Or.inl rfl))⟩

theorem quiet_foldl_AddSwingLow (calls : List (String × Candle)) (ks : KeyStore)
    (hq : ∀ name key, ks.levels.get name = some key → QuietEntry key) :
    ∀ name key,
      (calls.foldl (fun s call => s.AddSwingLow "" call.1 call.2) ks).levels.get name = some key →
      QuietEntry key := by
  induction calls generalizing ks with
  | nil => exact hq
  | cons call rest ih =>
    rw [List.foldl_cons]
    apply ih
    exact forall_get_set ks "" _ (fun _ e => QuietEntry e) hq
      (quiet_swingLowEntry call.1 call.2)

theorem quiet_runBody (candles : List Candle) (sched : Nat → List String)
    (st : List Trade × KeyStore) (i : Nat)
    (hq : ∀ name key, st.2.levels.get name = some key → QuietEntry key) :
    (runBody candles sched st i).1 = st.1 ∧
    ∀ name key, (runBody candles sched st i).2.levels.get name = some key → QuietEntry key := by
  cases hi : candles[i]? with
  | none =>
    rw [runBody_of_none candles sched st i hi]
    exact ⟨rfl, hq⟩
  | some candle =>
    constructor
    · rw [runBody_fst, hi]
      simp only
      rw [CheckPriceBreach_of_quiet st.2 (sched i) candle.Low hq]
      simp
    · rw [runBody_snd candles sched st i candle hi,
        CheckPriceBreach_of_quiet st.2 (sched i) candle.Low hq]
      exact quiet_foldl_AddSwingLow _ st.2 hq

theorem quiet_foldl_runBody (candles : List Candle) (sched : Nat → List String)
    (ks : KeyStore) (hq : ∀ name key, ks.levels.get name = some key → QuietEntry key) :
    ∀ j, ((List.range j).foldl (runBody candles sched) ([], ks)).1 = [] ∧
      ∀ name key,
        ((List.range j).foldl (runBody candles sched) ([], ks)).2.levels.get name = some key →
        QuietEntry key := by
  intro j
  induction j with
  | zero => exact ⟨rfl, hq⟩
  | succ j ih =>
    rw [foldl_range_succ]
    have h := quiet_runBody candles sched _ j ih.2
    exact ⟨h.1.trans ih.1, h.2⟩

/-! ## C21 -/

/-- C21. No trade can come from a cache without msb entries: for a cache reachable from
`NewKeyStore()` using only `AddFVG`, `AddOrderBlock`, `AddSwingLow` and `AddSwingHigh`,
every `CheckPriceBreach` returns nothing, the loop of `Run` returns an empty trade list for
every candle sequence, and every trade list `Run` returns is empty.  For a cache reachable
through all the public operations, every entry `CheckPriceBreach` returns is a record made
by `AddMSB`, stored under its own name. -/
theorem C21_no_trade_without_msb (ks : KeyStore) (candles : List Candle)
    (sched : Nat → List String) (order : List String) (p : ℚ) :
    (ReachableWithoutMSB ks →
      (ks.CheckPriceBreach order p).1 = [] ∧
      (runCandles candles sched ks).1 = [] ∧
      (∀ (data : DataHandler) (timeframe : Timeframe) (candleOrder : List Time)
          (trades : List Trade),
        (ICTStrategy.Run ⟨ks⟩ data timeframe candleOrder sched).1 = .ok trades →
        trades = [])) ∧
    (Reachable ks →
      ∀ e ∈ (ks.CheckPriceBreach order p).1,
        ∃ name d b c, ks.levels.get name = some e ∧ e = msbEntry name d b c) := by
  constructor
  · intro hreach
    have hq := reachableWithoutMSB_quiet ks hreach
    refine ⟨?_, ?_, ?_⟩
    · rw [CheckPriceBreach_of_quiet ks order p hq]
    · exact (quiet_foldl_runBody candles sched ks hq candles.length).1
    · intro data timeframe candleOrder trades hrun
      unfold ICTStrategy.Run at hrun
      cases hfetch : data.GetCandlesByTimeframe timeframe candleOrder with
      | error err =>
        rw [hfetch] at hrun
        cases hrun
      | ok fetched =>
        rw [hfetch] at hrun
        simp only [Except.ok.injEq] at hrun
        rw [← hrun]
        exact (quiet_foldl_runBody fetched sched ks hq fetched.length).1
  · intro hreach e he
    have hpub := reachable_publicEntry ks hreach
    rw [CheckPriceBreach_of_no_level ks order p
      (fun name key h => publicEntry_not_level name key (hpub name key h))] at he
    obtain ⟨name, _, hrep⟩ := List.mem_filterMap.mp he
    unfold reported at hrep
    cases hget : ks.levels.get name with
    | none => simp [hget] at hrep
    | some key =>
      rw [hget] at hrep
      by_cases hb : breaches p key = true
      · simp only [hb, if_true, Option.some.injEq] at hrep
        subst hrep
        rcases hpub name key hget with ⟨d, b, c, hmsb⟩ | hquiet
        · exact ⟨name, d, b, c, hget, hmsb⟩
        · rw [quietEntry_breaches p key hquiet] at hb
          cases hb
      · simp [hb] at hrep

/-- C21 at concrete inputs: on the cache `quietStore` (a gap 100..110 and an order block)
the five candles of `zigzagCandles` give no trade; once a bullish break at 100 is added, the
price 105, which lies inside the gap, returns the break entry and nothing else. -/
theorem C21_no_trade_without_msb_witness :
    ReachableWithoutMSB quietStore ∧
    (runCandles zigzagCandles (fun _ => ["gap", "ob", ""]) quietStore).1 = [] ∧
    Reachable (quietStore.AddMSB "break" "bullish" 100 dipCandle) ∧
    ((quietStore.AddMSB "break" "bullish" 100 dipCandle).CheckPriceBreach
        ["gap", "ob", "break"] 105).1
      = [msbEntry "break" "bullish" 100 dipCandle] :=
  have hquiet : ReachableWithoutMSB quietStore :=
    ReachableWithoutMSB.addOrderBlock _ _ _ _
      (ReachableWithoutMSB.addFVG _ _ _ _ _ ReachableWithoutMSB.newKeyStore)
  have hpublic : Reachable (quietStore.AddMSB "break" "bullish" 100 dipCandle) :=
    Reachable.addMSB _ _ _ _ _
      (Reachable.addOrderBlock _ _ _ _
        (Reachable.addFVG _ _ _ _ _ Reachable.newKeyStore))
  ⟨hquiet,
    ((C21_no_trade_without_msb quietStore zigzagCandles (fun _ => ["gap", "ob", ""])
      [] 0).1 hquiet).2.1,
    hpublic, by decide⟩

end Backtest
